import Mathlib

/-!
Verification of the flow-shop scheduling core (makespan engine, bottleneck
scoring model, and bottleneck-aware adjacent-swap local search).

Numbers are modelled as exact rationals.  The processing-time matrix is a
list of rows (one row per job, one column per machine); a sequence is a
list of job indices.  Fallible operations (Python exceptions) are modelled
with `Except String`.  Wall-clock readings (`time.perf_counter`) are
modelled by an explicit clock oracle `ℕ → ℚ` consumed reading by reading,
and the two inner loops whose termination is semantic (strict makespan
decrease over a finite search space) take an explicit fuel parameter; all
theorems hold for every oracle and every fuel value.
-/

namespace FlowShop

/-- A processing-time matrix: `Mat[job][machine]`. -/
abbrev Mat := List (List ℚ)

/-- Row of processing times of job `j` (Python `processing_times[job]`). -/
def procRow (times : Mat) (j : ℕ) : List ℚ :=
  times.getD j []

/-- Scan for the first sequence position of the completion-time recurrence:
each cell is the left neighbour plus the processing time (a running sum). -/
def firstRowGo (left : ℚ) : List ℚ → List ℚ
  | [] => []
  | t :: rest => (left + t) :: firstRowGo (left + t) rest

/-- Completion times of the first job in the sequence on every machine. -/
def firstRow : List ℚ → List ℚ
  | [] => []
  | t :: rest => t :: firstRowGo t rest

/-- Scan for a later sequence position: each cell is
`max (cell above) (cell to the left) + processing time`. -/
def nextRowGo (left : ℚ) : List ℚ → List ℚ → List ℚ
  | p :: ps, t :: ts => (max p left + t) :: nextRowGo (max p left + t) ps ts
  | _, _ => []

/-- Completion times of a later job given the previous position's row:
on machine `0` the cell is `cell above + processing time`. -/
def nextRow (prev : List ℚ) (proc : List ℚ) : List ℚ :=
  match prev, proc with
  | p :: ps, t :: ts => (p + t) :: nextRowGo (p + t) ps ts
  | _, _ => []

/-- Completion-time rows for the jobs of `seq`, given the row of the
position immediately before the first one (`none` at sequence start).
This is the loop nest shared by `calculate_makespan` and
`calculate_completion_matrix` in `makespan.py`. -/
def ctRows (times : Mat) : Option (List ℚ) → List ℕ → List (List ℚ)
  | _, [] => []
  | none, j :: rest =>
    let r := firstRow (procRow times j)
    r :: ctRows times (some r) rest
  | some prev, j :: rest =>
    let r := nextRow prev (procRow times j)
    r :: ctRows times (some r) rest

/-- Python `matrix[-1][-1]`: the bottom-right cell, an `IndexError` when the
matrix or its last row is empty. -/
def lastLast (m : List (List ℚ)) : Except String ℚ :=
  match m.getLast? with
  | none => .error ("IndexError")
  | some row =>
    match row.getLast? with
    | none => .error ("IndexError")
    | some v => .ok v

/-- `calculate_makespan` from `makespan.py`: `0` on an empty matrix or
sequence, a raised `ValueError` when a sequence entry is out of
`[0, jobCount)`, otherwise the bottom-right cell of the completion-time
matrix built by the recurrence. -/
def calculate_makespan (times : Mat) (seq : List ℕ) : Except String ℚ :=
  if times = [] ∨ seq = [] then .ok 0
  else if seq.any (fun j => times.length ≤ j) then
    .error ("ValueError: invalid job index")
  else lastLast (ctRows times none seq)

/-- `calculate_completion_matrix` from `makespan.py`: the full
completion-time matrix, `[]` on an empty matrix or sequence. -/
def calculate_completion_matrix (times : Mat) (seq : List ℕ) : List (List ℚ) :=
  if times = [] ∨ seq = [] then [] else ctRows times none seq

/-- Modelled from the spec: `calculate_completion_times` is imported by
`local_search.py` from the makespan module but is missing from the provided
sources.  Per spec §4.1 it is "same recurrence, returns the full matrix",
i.e. it coincides with `calculate_completion_matrix`. -/
def calculate_completion_times (times : Mat) (seq : List ℕ) : List (List ℚ) :=
  calculate_completion_matrix times seq

/-- The pure adjacent transposition: exchange positions `pos` and `pos+1`
(identity when `pos+1` is not a valid position). -/
def swapPair : List ℕ → ℕ → List ℕ
  | a :: b :: rest, 0 => b :: a :: rest
  | a :: rest, n + 1 => a :: swapPair rest n
  | l, _ => l

/-- `swap_adjacent` from `local_search.py`: a `ValueError` when `pos` is
outside `[0, len-2]`, otherwise a copy with positions `pos`, `pos+1`
exchanged. -/
def swap_adjacent (seq : List ℕ) (pos : ℕ) : Except String (List ℕ) :=
  if seq.length - 1 ≤ pos then .error ("ValueError: invalid swap position")
  else .ok (swapPair seq pos)

/-- The row preceding the rows `rows`, given the row `o` preceding the
whole block: the last row of `rows` when `rows` is non-empty, else `o`. -/
def lastOr (rows : List (List ℚ)) (o : Option (List ℚ)) : Option (List ℚ) :=
  match rows.getLast? with
  | some r => some r
  | none => o

/-- Modelled from the spec: `calculate_makespan_delta` is imported by
`local_search.py` from the makespan module but is missing from the provided
sources.  Per spec §4.1: given a completion-time matrix consistent with
`seq`, it returns the makespan and the completion-time matrix that result
from swapping the jobs at adjacent positions `swapPos` and `swapPos+1`;
rows before `swapPos` are copied unchanged, rows from `swapPos` on are
recomputed with the new job order, and it fails when `swapPos` is outside
`[0, n-2]`.  It does not mutate its inputs. -/
def calculate_makespan_delta (times : Mat) (seq : List ℕ) (swapPos : ℕ)
    (ct : List (List ℚ)) : Except String (ℚ × List (List ℚ)) :=
  if seq.length - 1 ≤ swapPos then .error ("ValueError: invalid swap position")
  else
    let newSeq := swapPair seq swapPos
    let prev : Option (List ℚ) :=
      if swapPos = 0 then none else (ct.take swapPos).getLast?
    let newCt := ct.take swapPos ++ ctRows times prev (newSeq.drop swapPos)
    (lastLast newCt).map (fun mk => (mk, newCt))

/-- Column count produced by Python `zip(*rows)`: the minimum row length
(over a non-empty list of rows). -/
def numColsZip : Mat → ℕ
  | [] => 0
  | r :: rest => rest.foldl (fun acc row => min acc row.length) r.length

/-- Total processing time of machine column `c` over all jobs. -/
def colSum (times : Mat) (c : ℕ) : ℚ :=
  (times.map (fun row => row.getD c 0)).sum

/-- Python `[sum(col) for col in zip(*processing_times)]`. -/
def machineTotals (times : Mat) : List ℚ :=
  (List.range (numColsZip times)).map (colSum times)

/-- Python `max` over a list (left fold of binary max; `0` only in the
empty case, which the callers guard against). -/
def pythonMax : List ℚ → ℚ
  | [] => 0
  | a :: rest => rest.foldl max a

/-- Python `list.index`: index of the first occurrence (list length when
the element is absent). -/
def pyIndex (x : ℚ) : List ℚ → ℕ
  | [] => 0
  | a :: rest => if a = x then 0 else pyIndex x rest + 1

/-- `identify_bottleneck_machine` from `local_search.py`: `0` for an empty
matrix or an empty first row, otherwise the first index of the maximum
machine total. -/
def identify_bottleneck_machine (times : Mat) : ℕ :=
  if times = [] ∨ times.headD [] = [] then 0
  else pyIndex (pythonMax (machineTotals times)) (machineTotals times)

/-- `calculate_total_processing_time` from `heuristics.py`: the sum of one
job's row. -/
def calculate_total_processing_time (times : Mat) (j : ℕ) : ℚ :=
  (times.getD j []).sum

/-- The window of indices `pos-1, pos, pos+1` clipped to `[0, n-2]`, used
by the neighbourhood-smoothness term of `score_adjacent_pair`. -/
def roughWindow (pos n : ℕ) : List ℕ :=
  (([(pos : ℤ) - 1, (pos : ℤ), (pos : ℤ) + 1].filter
    (fun k => decide (0 ≤ k ∧ k < (n : ℤ) - 1))).map Int.toNat)

/-- Element of the sequence at position `k` after the adjacent pair at
`pos`, `pos+1` has been swapped (the `after` helper of
`score_adjacent_pair`). -/
def afterSwapElem (sequence : List ℕ) (pos k : ℕ) : ℕ :=
  if k = pos then sequence.getD (pos + 1) 0
  else if k = pos + 1 then sequence.getD pos 0
  else sequence.getD k 0

/-- `score_adjacent_pair` from `local_search.py`: bottleneck-machine
difference plus total-load difference plus pendulum bias plus weighted
smoothness gain plus a criticality bonus. -/
def score_adjacent_pair (sequence : List ℕ) (pos : ℕ) (processing_times : Mat)
    (bottleneck_machine : ℕ) (job_totals : List ℚ) (n : ℕ)
    (bn_proc : List ℚ) (bn_threshold : ℚ) : ℚ :=
  let job1 := sequence.getD pos 0
  let job2 := sequence.getD (pos + 1) 0
  let bottleneck_diff :=
    |(procRow processing_times job1).getD bottleneck_machine 0 -
      (procRow processing_times job2).getD bottleneck_machine 0|
  let total_diff := |job_totals.getD job1 0 - job_totals.getD job2 0|
  let center : ℚ := ((n : ℚ) - 1) / 2
  let hl : ℕ × ℕ :=
    if job_totals.getD job2 0 ≤ job_totals.getD job1 0 then (pos, pos + 1)
    else (pos + 1, pos)
  let heavy_pos_after := if hl.1 = pos + 1 then pos else pos + 1
  let light_pos_after := if hl.2 = pos + 1 then pos else pos + 1
  let dist_heavy_c_before := |(hl.1 : ℚ) - center|
  let dist_heavy_c_after := |(heavy_pos_after : ℚ) - center|
  let end_dist_light_before := min hl.2 ((n - 1) - hl.2)
  let end_dist_light_after := min light_pos_after ((n - 1) - light_pos_after)
  let centrality_gain := max 0 (dist_heavy_c_before - dist_heavy_c_after)
  let end_bias_gain :=
    max 0 ((end_dist_light_after : ℚ) - (end_dist_light_before : ℚ))
  let pendulum_bias := 9 * centrality_gain + 4 * end_bias_gain
  let rough_before :=
    ((roughWindow pos n).map (fun k =>
      |job_totals.getD (sequence.getD k 0) 0 -
        job_totals.getD (sequence.getD (k + 1) 0) 0|)).sum
  let rough_after :=
    ((roughWindow pos n).map (fun k =>
      |job_totals.getD (afterSwapElem sequence pos k) 0 -
        job_totals.getD (afterSwapElem sequence pos (k + 1)) 0|)).sum
  let smooth_gain := max 0 (rough_before - rough_after)
  let bonus : ℚ :=
    if bn_threshold ≤ bn_proc.getD job1 0 ∨ bn_threshold ≤ bn_proc.getD job2 0
    then 5 else 0
  bottleneck_diff + total_diff + pendulum_bias + (1.5 : ℚ) * smooth_gain + bonus

/-- The Python sort key `(-score, position)` as a boolean order on
`(position, score)` pairs: higher score first, lower position on ties. -/
def scoreLe (x y : ℕ × ℚ) : Bool :=
  decide (y.2 < x.2 ∨ (x.2 = y.2 ∧ x.1 ≤ y.1))

/-- `scores.sort(key=lambda x: (-x[1], x[0]))`. -/
def sortScores (l : List (ℕ × ℚ)) : List (ℕ × ℚ) :=
  l.mergeSort scoreLe

/-- `[pos for pos, _ in scores[:top_k]]`. -/
def topPositions (l : List (ℕ × ℚ)) (k : ℕ) : List ℕ :=
  (l.take k).map Prod.fst

/-- Resolution of the `top_k` argument in `local_search_main`: all `n-1`
adjacent pairs when unspecified, otherwise clamped to `n-1`. -/
def resolveTopK (top_k : Option ℕ) (n : ℕ) : ℕ :=
  match top_k with
  | none => n - 1
  | some k => min k (n - 1)

/-- Per-job bottleneck-machine processing times and the 80th-percentile
threshold over them (lines 213-216 and 293-296 of `local_search.py`). -/
def bnStats (times : Mat) (num_jobs : ℕ) (bn : ℕ) : List ℚ × ℚ :=
  let bn_proc := (List.range num_jobs).map (fun j => (procRow times j).getD bn 0)
  let sorted_bn := bn_proc.mergeSort (fun a b => decide (a ≤ b))
  let q_index := min (sorted_bn.length - 1) ((4 * (sorted_bn.length - 1)) / 5)
  (bn_proc, sorted_bn.getD q_index 0)

/-- The immutable data of one `local_search_main` invocation. -/
structure Ctx where
  times : Mat
  jobTotals : List ℚ
  topK : ℕ
  mode : String
  recompute : Bool
  budget : Option ℚ
  clock : ℕ → ℚ
  startTime : ℚ
  fuel : ℕ

/-- The mutable state of one `local_search_main` invocation.  `tick`
counts the `time.perf_counter` readings consumed so far. -/
structure St where
  seq : List ℕ
  curMk : ℚ
  bestSeq : List ℕ
  bestMk : ℚ
  ct : List (List ℚ)
  bn : ℕ
  bnProc : List ℚ
  bnThr : ℚ
  streak : ℕ
  iters : ℕ
  tick : ℕ

/-- Score every adjacent position of the current sequence (lines 242-245
and 298-301 of `local_search.py`). -/
def scoreAll (times : Mat) (jobTotals : List ℚ) (st : St) : List (ℕ × ℚ) :=
  (List.range (st.seq.length - 1)).map (fun pos =>
    (pos, score_adjacent_pair st.seq pos times st.bn jobTotals
      st.seq.length st.bnProc st.bnThr))

/-- One short-circuited time-budget test: when a budget is set, consume a
clock reading and compare the elapsed time against it. -/
def budgetHit (ctx : Ctx) (tick : ℕ) : Bool × ℕ :=
  match ctx.budget with
  | none => (false, tick)
  | some b => (decide (b ≤ ctx.clock tick - ctx.startTime), tick + 1)

/-- The two `if recompute_bottleneck` blocks after an accepted intensify
swap (lines 289-296): recompute the bottleneck machine and its stats. -/
def maybeRecompute (ctx : Ctx) (st : St) : St :=
  if ctx.recompute then
    let bn := identify_bottleneck_machine ctx.times
    let s := bnStats ctx.times ctx.times.length bn
    { st with bn := bn, bnProc := s.1, bnThr := s.2 }
  else st

/-- The `if recompute_bottleneck` block of the window re-optimization
sweep (lines 403-404): recompute only the bottleneck machine. -/
def maybeRecomputeBnOnly (ctx : Ctx) (st : St) : St :=
  if ctx.recompute then { st with bn := identify_bottleneck_machine ctx.times }
  else st

/-- First-improvement scan over candidate positions (`search_mode ==
"first"`, lines 259-268): the first position whose delta strictly improves
the current makespan, with its makespan and matrix. -/
def firstImprove (times : Mat) (seq : List ℕ) (mk : ℚ) (ct : List (List ℚ)) :
    List ℕ → Except String (Option (ℕ × ℚ × List (List ℚ)))
  | [] => .ok none
  | pos :: rest => do
    let r ← calculate_makespan_delta times seq pos ct
    if r.1 < mk then .ok (some (pos, r.1, r.2))
    else firstImprove times seq mk ct rest

/-- Best-improvement scan over candidate positions (lines 269-277):
fold keeping the strictly best makespan seen (ties keep the earlier
position). -/
def bestImprove (times : Mat) (seq : List ℕ) (ct : List (List ℚ)) :
    List ℕ → ℚ → Option (ℕ × List (List ℚ)) →
    Except String (ℚ × Option (ℕ × List (List ℚ)))
  | [], bestMk, acc => .ok (bestMk, acc)
  | pos :: rest, bestMk, acc => do
    let r ← calculate_makespan_delta times seq pos ct
    if r.1 < bestMk then bestImprove times seq ct rest r.1 (some (pos, r.2))
    else bestImprove times seq ct rest bestMk acc

/-- Selection of the swap to apply among the candidate positions (lines
256-277): first-improvement scan in `"first"` mode, best-improvement fold
otherwise. -/
def selectSwap (times : Mat) (mode : String) (seq : List ℕ) (mk : ℚ)
    (ct : List (List ℚ)) (tp : List ℕ) :
    Except String (Option (ℕ × ℚ × List (List ℚ))) :=
  if mode = "first" then firstImprove times seq mk ct tp
  else do
    let r ← bestImprove times seq ct tp mk none
    match r.2 with
    | some (pos, c) => pure (some (pos, r.1, c))
    | none => pure none

/-- The intensification loop (lines 252-305): keep applying the selected
improving swap, recomputing bottleneck stats and rescoring after each
accepted swap, until no candidate improves, the time budget expires, or
the fuel runs out.  Returns the state, the latest sorted score list, the
latest candidate list, and the improvement flag. -/
def intensifyLoop (ctx : Ctx) : ℕ → St → List (ℕ × ℚ) → List ℕ → Bool →
    Except String (St × List (ℕ × ℚ) × List ℕ × Bool)
  | 0, st, scores, tp, impr => .ok (st, scores, tp, impr)
  | f + 1, st, scores, tp, impr =>
    let hb := budgetHit ctx st.tick
    let st1 := { st with tick := hb.2 }
    if hb.1 then .ok (st1, scores, tp, impr)
    else do
      let sel ← selectSwap ctx.times ctx.mode st1.seq st1.curMk st1.ct tp
      match sel with
      | some (pos, newMk, newCt) =>
        if newMk < st1.curMk then do
          let newSeq ← swap_adjacent st1.seq pos
          let st2 := { st1 with seq := newSeq, curMk := newMk, ct := newCt }
          let st3 :=
            if st2.curMk < st2.bestMk then
              { st2 with bestMk := st2.curMk, bestSeq := st2.seq }
            else st2
          let st4 := maybeRecompute ctx st3
          let scores' := sortScores (scoreAll ctx.times ctx.jobTotals st4)
          let tp' := topPositions scores' ctx.topK
          intensifyLoop ctx f st4 scores' tp' true
        else .ok (st1, scores, tp, impr)
      | none => .ok (st1, scores, tp, impr)

/-- The guided-perturbation block (lines 307-337), entered when the
iteration found no improving swap: bump the no-improvement streak and,
once it reaches 2, apply the best-scored swap unless it degrades the
makespan by more than 0.2%.  The boolean is `false` when the search must
stop (no candidate position exists). -/
def perturbPhase (times : Mat) (scores : List (ℕ × ℚ)) (st : St) :
    Except String (St × Bool) :=
  let st := { st with streak := st.streak + 1 }
  if 2 ≤ st.streak then
    match scores with
    | [] => .ok (st, false)
    | (bestPos, _) :: _ => do
      let r ← calculate_makespan_delta times st.seq bestPos st.ct
      let maxWorsen := (0.002 : ℚ) * st.curMk
      if r.1 ≤ st.curMk + maxWorsen then do
        let pertSeq ← swap_adjacent st.seq bestPos
        let st := { st with seq := pertSeq, curMk := r.1, ct := r.2, streak := 0 }
        let st :=
          if st.curMk < st.bestMk then
            { st with bestMk := st.curMk, bestSeq := st.seq }
          else st
        .ok (st, true)
      else .ok (st, true)
  else .ok (st, true)

/-- The adjacent micro-swap positions taken when relocating the job at
`fromPos` to `toPos` (the `while pos != to_pos` loop of
`evaluate_insertion_delta`). -/
def insertSwapPositions (fromPos toPos : ℕ) : List ℕ :=
  if fromPos < toPos then List.range' fromPos (toPos - fromPos)
  else (List.range' toPos (fromPos - toPos)).reverse

/-- The micro-swap loop of `evaluate_insertion_delta`: apply the delta
evaluation and the corresponding in-place swap for each position. -/
def insertGo (times : Mat) : List ℕ → List ℕ → ℚ → List (List ℚ) →
    Except String (List ℕ × ℚ × List (List ℚ))
  | [], seq, mk, ct => .ok (seq, mk, ct)
  | sp :: rest, seq, _, ct => do
    let r ← calculate_makespan_delta times seq sp ct
    insertGo times rest (swapPair seq sp) r.1 r.2

/-- `evaluate_insertion_delta` from `local_search.py`: move the job at
`fromPos` to `toPos` through adjacent swaps, evaluating each micro-step
with `calculate_makespan_delta`. -/
def evaluate_insertion_delta (times : Mat) (seq : List ℕ) (fromPos toPos : ℕ)
    (ct : List (List ℚ)) : Except String (List ℕ × ℚ × List (List ℚ)) := do
  let mk0 ← (if ct = [] then calculate_makespan times seq else lastLast ct)
  if fromPos = toPos ∨ seq.length ≤ 1 then .ok (seq, mk0, ct)
  else insertGo times (insertSwapPositions fromPos toPos) seq mk0 ct

/-- Inner loop of the insertion phase (lines 356-370): try every target
position in the window, accept the first relocation that improves the
current makespan. -/
def insertTryTargets (times : Mat) (pos : ℕ) : List ℕ → St →
    Except String (St × Bool)
  | [], st => .ok (st, false)
  | t :: ts, st => do
    let r ← evaluate_insertion_delta times st.seq pos t st.ct
    if r.2.1 < st.curMk then
      let st := { st with seq := r.1, curMk := r.2.1, ct := r.2.2 }
      let st :=
        if st.curMk < st.bestMk then
          { st with bestMk := st.curMk, bestSeq := st.seq }
        else st
      .ok (st, true)
    else insertTryTargets times pos ts st

/-- Outer loop of the insertion phase (lines 352-372): for each candidate
position, try its window of targets and stop at the first improvement. -/
def insertTryCandidates (times : Mat) (n : ℕ) : List ℕ → St →
    Except String (St × Bool)
  | [], st => .ok (st, false)
  | pos :: ps, st => do
    let left := pos - 14
    let right := min (n - 1) (pos + 14)
    let targets := List.range' left (pos - left) ++
      List.range' (pos + 1) (right + 1 - (pos + 1))
    let r ← insertTryTargets times pos targets st
    if r.2 then .ok (r.1, true) else insertTryCandidates times n ps r.1

/-- One sweep of the window re-optimization (lines 393-404): scan the
window once, applying every improving adjacent swap found. -/
def windowSweep (ctx : Ctx) : List ℕ → St → Bool → Except String (St × Bool)
  | [], st, improved => .ok (st, improved)
  | pos :: ps, st, improved => do
    let r ← calculate_makespan_delta ctx.times st.seq pos st.ct
    if r.1 < st.curMk then do
      let newSeq ← swap_adjacent st.seq pos
      let st := { st with seq := newSeq, curMk := r.1, ct := r.2 }
      let st :=
        if st.curMk < st.bestMk then
          { st with bestMk := st.curMk, bestSeq := st.seq }
        else st
      let st := maybeRecomputeBnOnly ctx st
      windowSweep ctx ps st true
    else windowSweep ctx ps st improved

/-- The `while True` wrapper of the window re-optimization (lines
391-406): repeat the sweep until it finds nothing (or fuel runs out). -/
def windowLoop (ctx : Ctx) (lo hi : ℕ) : ℕ → St → Except String St
  | 0, st => .ok st
  | f + 1, st => do
    let r ← windowSweep ctx (List.range' lo (hi + 1 - lo)) st false
    if r.2 then windowLoop ctx lo hi f r.1 else .ok r.1

/-- The window re-optimization phase (lines 377-406), run after any
accepted improvement: focus on the highest-scored position of a fresh
scoring pass and intensify inside a window of 18 positions around it. -/
def windowReopt (ctx : Ctx) (st : St) : Except String St := do
  let scores := sortScores (scoreAll ctx.times ctx.jobTotals st)
  match scores with
  | [] => .error ("IndexError")
  | (focus, _) :: _ =>
    let n := st.seq.length
    let lo := focus - 18
    let hi := min (n - 2) (focus + 18)
    windowLoop ctx lo hi ctx.fuel st

/-- One pass of the main search loop (lines 234-406, after the top-of-loop
budget test): bump the iteration counter, score and rank all adjacent
pairs, intensify, perturb or reset the streak, run the insertion phase,
and re-optimize the focus window.  The boolean is `false` when the loop
must break. -/
def iterationBody (ctx : Ctx) (st0 : St) : Except String (St × Bool) := do
  let st := { st0 with iters := st0.iters + 1 }
  let scores0 := sortScores (scoreAll ctx.times ctx.jobTotals st)
  let tp0 := topPositions scores0 ctx.topK
  let r ← intensifyLoop ctx ctx.fuel st scores0 tp0 false
  let st := r.1
  let scores := r.2.1
  let tp := r.2.2.1
  let impr := r.2.2.2
  let p ← (if impr then pure ({ st with streak := 0 }, true)
           else perturbPhase ctx.times scores st)
  if p.2 = false then .ok (p.1, false)
  else do
    let st := p.1
    let q ←
      (if ¬impr ∧ 2 ≤ st.streak then do
        let r2 ← insertTryCandidates ctx.times st.seq.length
          (tp.take (min 10 tp.length)) st
        if r2.2 then pure ({ r2.1 with streak := 0 }, true)
        else pure (r2.1, impr)
       else pure (st, impr))
    let st := q.1
    if q.2 then do
      let st ← windowReopt ctx st
      .ok (st, true)
    else .ok (st, true)

/-- The main `while iterations_used < max_iterations` loop: test the time
budget, run one iteration body, stop on a break. -/
def searchLoop (ctx : Ctx) : ℕ → St → Except String St
  | 0, st => .ok st
  | r + 1, st =>
    let hb := budgetHit ctx st.tick
    let st := { st with tick := hb.2 }
    if hb.1 then .ok st
    else do
      let b ← iterationBody ctx st
      if b.2 then searchLoop ctx r b.1 else .ok b.1

/-- `local_search_main` from `local_search.py`: validate the inputs,
handle the degenerate cases, initialize the search state and run the main
loop, returning the best sequence, best makespan, iterations used and
elapsed time.  `clock` is the `time.perf_counter` oracle and `fuel` bounds
the two inner loops whose termination is semantic. -/
def local_search_main (initial_sequence : List ℕ) (processing_times : Mat)
    (max_iterations : ℕ) (top_k : Option ℕ) (search_mode : String)
    (recompute_bottleneck : Bool) (time_budget : Option ℚ)
    (clock : ℕ → ℚ) (fuel : ℕ) :
    Except String (List ℕ × ℚ × ℕ × ℚ) :=
  if initial_sequence = [] ∨ processing_times = [] then
    .ok (initial_sequence, 0, 0, 0)
  else
    let num_jobs := processing_times.length
    if initial_sequence.length ≠ num_jobs then
      .error ("ValueError: sequence length must match number of jobs")
    else if num_jobs ≤ 1 then
      (calculate_makespan processing_times initial_sequence).map
        (fun mk => (initial_sequence, mk, 0, 0))
    else do
      let mk ← calculate_makespan processing_times initial_sequence
      let ct := calculate_completion_times processing_times initial_sequence
      let bn := identify_bottleneck_machine processing_times
      let jobTotals := (List.range num_jobs).map
        (calculate_total_processing_time processing_times)
      let s := bnStats processing_times num_jobs bn
      let startTime := clock 0
      let ctx : Ctx :=
        { times := processing_times, jobTotals := jobTotals,
          topK := resolveTopK top_k initial_sequence.length,
          mode := search_mode, recompute := recompute_bottleneck,
          budget := time_budget, clock := clock, startTime := startTime,
          fuel := fuel }
      let st0 : St :=
        { seq := initial_sequence, curMk := mk, bestSeq := initial_sequence,
          bestMk := mk, ct := ct, bn := bn, bnProc := s.1, bnThr := s.2,
          streak := 0, iters := 0, tick := 1 }
      let stF ← searchLoop ctx max_iterations st0
      .ok (stF.bestSeq, stF.bestMk, stF.iters, clock stF.tick - startTime)

/-- A rectangular matrix: every row has `m` columns. -/
def Rect (times : Mat) (m : ℕ) : Prop :=
  ∀ row ∈ times, row.length = m

/-- Well-formedness of a processing-time matrix for the non-degenerate
search: rectangular, at least one machine, at least two jobs. -/
def GoodTimes (times : Mat) (m : ℕ) : Prop :=
  Rect times m ∧ 0 < m ∧ 2 ≤ times.length

/-- Consistency of a sequence/makespan/completion-matrix triple. -/
def GoodTriple (times : Mat) (seq : List ℕ) (mk : ℚ)
    (ct : List (List ℚ)) : Prop :=
  seq.length = times.length ∧ (∀ j ∈ seq, j < times.length) ∧
  ct = calculate_completion_times times seq ∧
  calculate_makespan times seq = .ok mk

/-- The search-state invariant: the current triple is consistent and the
best pair is a genuine sequence/makespan pair. -/
def GoodSt (times : Mat) (st : St) : Prop :=
  GoodTriple times st.seq st.curMk st.ct ∧
  st.bestSeq.length = times.length ∧ (∀ j ∈ st.bestSeq, j < times.length) ∧
  calculate_makespan times st.bestSeq = .ok st.bestMk

/-- The bottleneck fields hold exactly the values recomputation from the
immutable matrix would produce. -/
def BnInv (times : Mat) (st : St) : Prop :=
  st.bn = identify_bottleneck_machine times ∧
  st.bnProc = (bnStats times times.length st.bn).1 ∧
  st.bnThr = (bnStats times times.length st.bn).2

theorem bindOk {ε α β : Type} (a : α) (f : α → Except ε β) :
    (Except.ok a : Except ε α) >>= f = f a := rfl

theorem bindErr {ε α β : Type} (e : ε) (f : α → Except ε β) :
    (Except.error e : Except ε α) >>= f = .error e := rfl

theorem getLast?_mem {α : Type} {l : List α} {a : α}
    (h : l.getLast? = some a) : a ∈ l := by
  induction l with
  | nil => simp at h
  | cons x xs ih =>
    cases xs with
    | nil => simp_all
    | cons y ys =>
      rw [List.getLast?_cons_cons] at h
      exact List.mem_cons_of_mem _ (ih h)

theorem firstRowGo_length (l : List ℚ) : ∀ left,
    (firstRowGo left l).length = l.length := by
  induction l with
  | nil => intro left; rfl
  | cons t rest ih => intro left; simp [firstRowGo, ih]

theorem firstRow_length (l : List ℚ) : (firstRow l).length = l.length := by
  cases l with
  | nil => rfl
  | cons t rest => simp [firstRow, firstRowGo_length]

theorem nextRowGo_length (ps : List ℚ) : ∀ (ts : List ℚ) (left : ℚ),
    (nextRowGo left ps ts).length = min ps.length ts.length := by
  induction ps with
  | nil => intro ts left; cases ts <;> simp [nextRowGo]
  | cons p ps ih =>
    intro ts left
    cases ts with
    | nil => simp [nextRowGo]
    | cons t ts => simp [nextRowGo, ih]; omega

theorem nextRow_length (ps ts : List ℚ) :
    (nextRow ps ts).length = min ps.length ts.length := by
  cases ps with
  | nil => cases ts <;> simp [nextRow]
  | cons p ps =>
    cases ts with
    | nil => simp [nextRow]
    | cons t ts => simp [nextRow, nextRowGo_length]; omega

theorem ctRows_length (times : Mat) (seq : List ℕ) : ∀ o,
    (ctRows times o seq).length = seq.length := by
  induction seq with
  | nil => intro o; cases o <;> rfl
  | cons j rest ih => intro o; cases o <;> simp [ctRows, ih]

theorem ctRows_row_length (times : Mat) {m : ℕ} (seq : List ℕ) : ∀ o,
    (∀ j ∈ seq, (procRow times j).length = m) →
    (∀ r, o = some r → r.length = m) →
    ∀ row ∈ ctRows times o seq, row.length = m := by
  induction seq with
  | nil => intro o _ _ row hrow; cases o <;> simp [ctRows] at hrow
  | cons j rest ih =>
    intro o hproc ho row hrow
    have hj : (procRow times j).length = m := hproc j (by simp)
    have hrest : ∀ i ∈ rest, (procRow times i).length = m := by
      intro i hi; exact hproc i (by simp [hi])
    cases o with
    | none =>
      simp only [ctRows] at hrow
      rcases List.mem_cons.mp hrow with h | h
      · rw [h, firstRow_length, hj]
      · exact ih (some (firstRow (procRow times j))) hrest
          (by intro r hr; cases hr; rw [firstRow_length, hj]) row h
    | some prev =>
      have hprev : prev.length = m := ho prev rfl
      simp only [ctRows] at hrow
      rcases List.mem_cons.mp hrow with h | h
      · rw [h, nextRow_length, hprev, hj]; omega
      · exact ih (some (nextRow prev (procRow times j))) hrest
          (by intro r hr; cases hr; rw [nextRow_length, hprev, hj]; omega) row h

theorem procRow_length_of_rect {times : Mat} {m : ℕ} (hrect : Rect times m)
    {j : ℕ} (hj : j < times.length) : (procRow times j).length = m := by
  have hmem : times.getD j [] ∈ times := by
    rw [List.getD_eq_getElem times [] hj]
    exact List.getElem_mem hj
  exact hrect _ hmem

theorem lastLast_of_good {mat : List (List ℚ)} {m : ℕ} (hne : mat ≠ [])
    (hrows : ∀ row ∈ mat, row.length = m) (hm : 0 < m) :
    lastLast mat = .ok ((mat.getLastD []).getLastD 0) := by
  have h1 : mat.getLast? = some (mat.getLastD []) := by
    cases h : mat.getLast? with
    | none => exact absurd (List.getLast?_eq_none_iff.mp h) hne
    | some r => rw [List.getLastD_eq_getLast?, h]; rfl
  have hrmem : (mat.getLastD []) ∈ mat := getLast?_mem h1
  have hrlen : (mat.getLastD []).length = m := hrows _ hrmem
  have hrne : (mat.getLastD []) ≠ [] := by
    intro hc; rw [hc] at hrlen; simp at hrlen; omega
  have h2 : (mat.getLastD []).getLast? = some ((mat.getLastD []).getLastD 0) := by
    cases h : (mat.getLastD []).getLast? with
    | none => exact absurd (List.getLast?_eq_none_iff.mp h) hrne
    | some v => rw [List.getLastD_eq_getLast? 0, h]; rfl
  simp only [lastLast, h1, h2]

/-- C8: `calculate_makespan` raises a `ValueError`-style error whenever
some sequence entry is outside `[0, jobCount)`, and returns `0` without
raising on an empty matrix or an empty sequence. -/
theorem makespan_validation (times : Mat) (seq : List ℕ) :
    ((times = [] ∨ seq = []) → calculate_makespan times seq = .ok 0) ∧
    ((∃ j ∈ seq, times.length ≤ j) →
      calculate_makespan times seq = .ok 0 ∨
      calculate_makespan times seq = .error ("ValueError: invalid job index")) ∧
    (times ≠ [] → seq ≠ [] → (∃ j ∈ seq, times.length ≤ j) →
      calculate_makespan times seq = .error ("ValueError: invalid job index")) := by
  refine ⟨?_, ?_, ?_⟩
  · intro h; simp [calculate_makespan, h]
  · intro h
    by_cases hdeg : times = [] ∨ seq = []
    · left; simp [calculate_makespan, hdeg]
    · right
      push_neg at hdeg
      have hany : seq.any (fun j => decide (times.length ≤ j)) = true := by
        rcases h with ⟨j, hj, hje⟩
        exact List.any_eq_true.mpr ⟨j, hj, by simpa using hje⟩
      simp [calculate_makespan, hdeg.1, hdeg.2, hany]
  · intro h1 h2 h
    have hany : seq.any (fun j => decide (times.length ≤ j)) = true := by
      rcases h with ⟨j, hj, hje⟩
      exact List.any_eq_true.mpr ⟨j, hj, by simpa using hje⟩
    simp [calculate_makespan, h1, h2, hany]

theorem makespan_validation_witness :
    (calculate_makespan [] [0] = .ok 0) ∧
    (calculate_makespan [[1, 2]] [] = .ok 0) ∧
    (calculate_makespan [[1, 2]] [1] = .error ("ValueError: invalid job index")) := by
  refine ⟨?_, ?_, ?_⟩
  · exact (makespan_validation [] [0]).1 (Or.inl rfl)
  · exact (makespan_validation [[1, 2]] []).1 (Or.inr rfl)
  · exact (makespan_validation [[1, 2]] [1]).2.2 (by simp) (by simp)
      ⟨1, by simp, by simp⟩

/-- C3: on a valid non-empty instance, `calculate_makespan` equals the
bottom-right cell of the matrix returned by the completion-time
computation (`calculate_completion_matrix`). -/
theorem makespan_eq_completion_corner {times : Mat} {seq : List ℕ} {m : ℕ}
    (hrect : Rect times m) (hm : 0 < m) (htne : times ≠ []) (hsne : seq ≠ [])
    (hvalid : ∀ j ∈ seq, j < times.length) :
    calculate_makespan times seq =
      .ok (((calculate_completion_matrix times seq).getLastD []).getLastD 0) := by
  have hguard : ¬(times = [] ∨ seq = []) := by simp [htne, hsne]
  have hany : seq.any (fun j => decide (times.length ≤ j)) = false := by
    rw [List.any_eq_false]
    intro j hj
    simpa using Nat.not_le.mpr (hvalid j hj)
  have hrows : ∀ row ∈ ctRows times none seq, row.length = m := by
    refine ctRows_row_length times seq none ?_ (by intro r hr; cases hr)
    intro j hj; exact procRow_length_of_rect hrect (hvalid j hj)
  have hne : ctRows times none seq ≠ [] := by
    intro hc
    have := ctRows_length times seq none
    rw [hc] at this
    exact hsne (List.length_eq_zero.mp this.symm)
  rw [calculate_makespan, calculate_completion_matrix, if_neg hguard,
    if_neg hguard, if_neg (by simp [hany])]
  exact lastLast_of_good hne hrows hm

theorem makespan_eq_completion_corner_witness :
    calculate_makespan [[7, 5, 9], [4, 8, 3]] [1, 0] =
      .ok (((calculate_completion_matrix [[7, 5, 9], [4, 8, 3]] [1, 0]).getLastD
        []).getLastD 0) :=
  makespan_eq_completion_corner (m := 3)
    (by intro row h; simp at h; rcases h with h | h <;> simp [h])
    (by decide) (by decide) (by decide) (by decide)

theorem foldl_max_mem (rest : List ℚ) : ∀ a : ℚ,
    rest.foldl max a = a ∨ rest.foldl max a ∈ rest := by
  induction rest with
  | nil => intro a; left; rfl
  | cons b bs ih =>
    intro a
    rcases ih (max a b) with h | h
    · rcases max_choice a b with hm | hm
      · left
        show List.foldl max (max a b) bs = a
        rw [h, hm]
      · right
        show List.foldl max (max a b) bs ∈ b :: bs
        rw [h, hm]
        simp
    · right
      show List.foldl max (max a b) bs ∈ b :: bs
      exact List.mem_cons_of_mem b h

theorem le_foldl_max (rest : List ℚ) : ∀ a : ℚ,
    a ≤ rest.foldl max a ∧ ∀ x ∈ rest, x ≤ rest.foldl max a := by
  induction rest with
  | nil => intro a; exact ⟨le_refl a, by simp⟩
  | cons b bs ih =>
    intro a
    obtain ⟨h1, h2⟩ := ih (max a b)
    constructor
    · show a ≤ List.foldl max (max a b) bs
      exact le_trans (le_max_left a b) h1
    · intro x hx
      show x ≤ List.foldl max (max a b) bs
      rcases List.mem_cons.mp hx with h | h
      · rw [h]
        exact le_trans (le_max_right a b) h1
      · exact h2 x h

theorem pythonMax_mem {l : List ℚ} (h : l ≠ []) : pythonMax l ∈ l := by
  cases l with
  | nil => exact absurd rfl h
  | cons a rest =>
    rcases foldl_max_mem rest a with hm | hm
    · simp [pythonMax, hm]
    · simp [pythonMax]; right; exact hm

theorem le_pythonMax {l : List ℚ} {x : ℚ} (h : x ∈ l) : x ≤ pythonMax l := by
  cases l with
  | nil => simp at h
  | cons a rest =>
    rcases List.mem_cons.mp h with hx | hx
    · exact hx ▸ (le_foldl_max rest a).1
    · exact (le_foldl_max rest a).2 x hx

theorem pyIndex_lt_length {l : List ℚ} {x : ℚ} (h : x ∈ l) :
    pyIndex x l < l.length := by
  induction l with
  | nil => simp at h
  | cons a rest ih =>
    by_cases hax : a = x
    · simp [pyIndex, hax]
    · have hx : x ∈ rest := by
        rcases List.mem_cons.mp h with hc | hc
        · exact absurd hc.symm hax
        · exact hc
      simp only [pyIndex, if_neg hax, List.length_cons]
      exact Nat.succ_lt_succ (ih hx)

theorem getD_pyIndex {l : List ℚ} {x : ℚ} (h : x ∈ l) :
    l.getD (pyIndex x l) 0 = x := by
  induction l with
  | nil => simp at h
  | cons a rest ih =>
    by_cases hax : a = x
    · simp [pyIndex, hax]
    · have hx : x ∈ rest := by
        rcases List.mem_cons.mp h with hc | hc
        · exact absurd hc.symm hax
        · exact hc
      simp only [pyIndex, if_neg hax]
      simpa using ih hx

theorem getD_lt_pyIndex {l : List ℚ} {x : ℚ} : ∀ k, k < pyIndex x l →
    l.getD k 0 ≠ x := by
  induction l with
  | nil => intro k hk; simp [pyIndex] at hk
  | cons a rest ih =>
    intro k hk
    by_cases hax : a = x
    · simp [pyIndex, hax] at hk
    · simp only [pyIndex, if_neg hax] at hk
      cases k with
      | zero => simpa using hax
      | succ k => simpa using ih k (Nat.lt_of_succ_lt_succ hk)

theorem numColsZip_rect {times : Mat} {m : ℕ} (hrect : Rect times m)
    (hne : times ≠ []) : numColsZip times = m := by
  cases times with
  | nil => exact absurd rfl hne
  | cons r rest =>
    have hr : r.length = m := hrect r (by simp)
    have haux : ∀ (l : List (List ℚ)), (∀ row ∈ l, row.length = m) →
        l.foldl (fun acc row => min acc row.length) m = m := by
      intro l
      induction l with
      | nil => intro _; rfl
      | cons b bs ihb =>
        intro hl
        have hb : b.length = m := hl b (by simp)
        simp only [List.foldl, hb, min_self]
        exact ihb (by intro row hrow; exact hl row (by simp [hrow]))
    simp only [numColsZip, hr]
    exact haux rest (by intro row hrow; exact hrect row (by simp [hrow]))

theorem machineTotals_length {times : Mat} {m : ℕ} (hrect : Rect times m)
    (hne : times ≠ []) : (machineTotals times).length = m := by
  simp [machineTotals, numColsZip_rect hrect hne]

theorem machineTotals_getD {times : Mat} {m : ℕ} (hrect : Rect times m)
    (hne : times ≠ []) {c : ℕ} (hc : c < m) :
    (machineTotals times).getD c 0 = colSum times c := by
  have hlen : (machineTotals times).length = m := machineTotals_length hrect hne
  rw [List.getD_eq_getElem _ _ (by rw [hlen]; exact hc)]
  simp [machineTotals, numColsZip_rect hrect hne]

/-- C6: `identify_bottleneck_machine` returns the first index of the
maximum column total, a value in `[0, machineCount)`; a strictly dominant
machine is returned exactly; empty and single-machine instances give 0. -/
theorem bottleneck_machine_spec {times : Mat} {m : ℕ} (hrect : Rect times m)
    (hne : times ≠ []) (hm : 0 < m) :
    identify_bottleneck_machine times < m ∧
    (∀ c, c < m →
      colSum times c ≤ colSum times (identify_bottleneck_machine times)) ∧
    (∀ k, k < identify_bottleneck_machine times →
      colSum times k < colSum times (identify_bottleneck_machine times)) ∧
    (∀ k, k < m → (∀ c, c < m → c ≠ k → colSum times c < colSum times k) →
      identify_bottleneck_machine times = k) ∧
    (m = 1 → identify_bottleneck_machine times = 0) ∧
    identify_bottleneck_machine [] = 0 := by
  have hhead : times.headD [] ≠ [] := by
    cases times with
    | nil => exact absurd rfl hne
    | cons r rest =>
      have hlen0 : r.length = m := hrect r (by simp)
      intro hc
      simp only [List.headD_cons] at hc
      rw [hc] at hlen0
      simp at hlen0
      omega
  have hguard : ¬(times = [] ∨ times.headD [] = []) := by
    intro h
    rcases h with h | h
    · exact hne h
    · exact hhead h
  have hid : identify_bottleneck_machine times =
      pyIndex (pythonMax (machineTotals times)) (machineTotals times) := by
    rw [identify_bottleneck_machine, if_neg hguard]
  have hlen : (machineTotals times).length = m := machineTotals_length hrect hne
  have hmtne : machineTotals times ≠ [] := by
    intro hc; rw [hc] at hlen; simp at hlen; omega
  have hmax_mem : pythonMax (machineTotals times) ∈ machineTotals times :=
    pythonMax_mem hmtne
  have hresult_lt : identify_bottleneck_machine times < m := by
    rw [hid, ← hlen]; exact pyIndex_lt_length hmax_mem
  have hres_val : colSum times (identify_bottleneck_machine times) =
      pythonMax (machineTotals times) := by
    rw [← machineTotals_getD hrect hne hresult_lt, hid]
    exact getD_pyIndex hmax_mem
  have hle : ∀ c, c < m →
      colSum times c ≤ colSum times (identify_bottleneck_machine times) := by
    intro c hc
    rw [hres_val, ← machineTotals_getD hrect hne hc]
    refine le_pythonMax ?_
    rw [List.getD_eq_getElem _ _ (by rw [hlen]; exact hc)]
    exact List.getElem_mem _
  refine ⟨hresult_lt, hle, ?_, ?_, ?_, rfl⟩
  · intro k hk
    have hkm : k < m := lt_trans hk hresult_lt
    have hne_k : (machineTotals times).getD k 0 ≠
        pythonMax (machineTotals times) := by
      rw [hid] at hk
      exact getD_lt_pyIndex k hk
    have hlt : colSum times k < colSum times (identify_bottleneck_machine times) := by
      rcases lt_or_eq_of_le (hle k hkm) with h | h
      · exact h
      · exfalso
        apply hne_k
        rw [machineTotals_getD hrect hne hkm, h, hres_val]
    exact hlt
  · intro k hkm hdom
    by_contra hne_k
    have h1 : colSum times k ≤ colSum times (identify_bottleneck_machine times) :=
      hle k hkm
    have h2 : colSum times (identify_bottleneck_machine times) < colSum times k :=
      hdom _ hresult_lt (by intro hc; exact hne_k hc)
    exact absurd h1 (not_le.mpr h2)
  · intro h1
    have := hresult_lt
    omega

theorem bottleneck_machine_spec_witness :
    identify_bottleneck_machine [[1, 2], [1, 3]] < 2 ∧
    identify_bottleneck_machine [[1, 2], [1, 3]] = 1 := by
  have hrect : Rect [[(1 : ℚ), 2], [1, 3]] 2 := by
    intro row h; simp at h; rcases h with h | h <;> simp [h]
  obtain ⟨h1, _, _, h4, _, _⟩ :=
    bottleneck_machine_spec hrect (by simp) (by norm_num)
  refine ⟨h1, h4 1 (by norm_num) ?_⟩
  intro c hc hc1
  interval_cases c
  · simp [colSum]; norm_num
  · exact absurd rfl hc1

theorem getLast?_cons_ne {α : Type} (a : α) {l : List α} (h : l ≠ []) :
    (a :: l).getLast? = l.getLast? := by
  cases l with
  | nil => exact absurd rfl h
  | cons b bs => exact List.getLast?_cons_cons

theorem firstRowGo_getLast? (l : List ℚ) : ∀ c : ℚ, l ≠ [] →
    (firstRowGo c l).getLast? = some (c + l.sum) := by
  induction l with
  | nil => intro c h; exact absurd rfl h
  | cons t rest ih =>
    intro c _
    cases rest with
    | nil => simp [firstRowGo]
    | cons u us =>
      rw [firstRowGo]
      have hne3 : firstRowGo (c + t) (u :: us) ≠ [] := by
        intro hc
        have hl := firstRowGo_length (u :: us) (c + t)
        rw [hc] at hl
        simp at hl
      rw [getLast?_cons_ne _ hne3, ih (c + t) (by simp)]
      congr 1
      simp
      ring

theorem firstRow_getLast? {l : List ℚ} (h : l ≠ []) :
    (firstRow l).getLast? = some l.sum := by
  cases l with
  | nil => exact absurd rfl h
  | cons t rest =>
    cases rest with
    | nil => simp [firstRow, firstRowGo]
    | cons u us =>
      rw [firstRow]
      have hne3 : firstRowGo t (u :: us) ≠ [] := by
        intro hc
        have hl := firstRowGo_length (u :: us) t
        rw [hc] at hl
        simp at hl
      rw [getLast?_cons_ne _ hne3, firstRowGo_getLast? (u :: us) t (by simp)]
      congr 1

/-- C4: the validation and degenerate paths of `local_search_main`: empty
inputs return the input sequence with makespan 0, 0 iterations and 0
elapsed time; a length mismatch raises the validation error; a single-job
instance returns immediately with the job's own total processing time and
0 iterations. -/
theorem main_edge_cases (init : List ℕ) (times : Mat) (mi : ℕ)
    (tk : Option ℕ) (mo : String) (rb : Bool) (bu : Option ℚ)
    (clk : ℕ → ℚ) (fu : ℕ) (row : List ℚ) :
    ((init = [] ∨ times = []) →
      local_search_main init times mi tk mo rb bu clk fu = .ok (init, 0, 0, 0)) ∧
    (init ≠ [] → times ≠ [] → init.length ≠ times.length →
      local_search_main init times mi tk mo rb bu clk fu =
        .error ("ValueError: sequence length must match number of jobs")) ∧
    (row ≠ [] →
      local_search_main [0] [row] mi tk mo rb bu clk fu =
        .ok ([0], calculate_total_processing_time [row] 0, 0, 0)) := by
  refine ⟨?_, ?_, ?_⟩
  · intro h
    rw [local_search_main, if_pos h]
  · intro h1 h2 h3
    rw [local_search_main, if_neg (by simp [h1, h2]), if_pos h3]
  · intro hrow
    have hmk : calculate_makespan [row] [0] = .ok row.sum := by
      rw [calculate_makespan, if_neg (by simp), if_neg (by simp)]
      have hrows : ctRows [row] none [0] = [firstRow row] := by
        simp [ctRows, procRow]
      rw [hrows, lastLast]
      simp only [List.getLast?_singleton]
      rw [firstRow_getLast? hrow]
    simp [local_search_main, hmk, Except.map, calculate_total_processing_time]

theorem main_edge_cases_witness :
    (local_search_main [] [[1, 2]] 3 none ("best") true none (fun _ => 0) 5 =
      .ok ([], 0, 0, 0)) ∧
    (local_search_main [0] [[1, 2], [3, 4]] 3 none ("best") true none
      (fun _ => 0) 5 =
      .error ("ValueError: sequence length must match number of jobs")) ∧
    (local_search_main [0] [[5, 7]] 3 none ("best") true none (fun _ => 0) 5 =
      .ok ([0], calculate_total_processing_time [[5, 7]] 0, 0, 0)) :=
  ⟨(main_edge_cases [] [[1, 2]] 3 none ("best") true none (fun _ => 0) 5
      []).1 (Or.inl rfl),
   (main_edge_cases [0] [[1, 2], [3, 4]] 3 none ("best") true none
      (fun _ => 0) 5 []).2.1 (by simp) (by simp) (by simp),
   (main_edge_cases [0] [[5, 7]] 3 none ("best") true none (fun _ => 0) 5
      [5, 7]).2.2 (by simp)⟩

theorem scoreLe_trans (a b c : ℕ × ℚ) (hab : scoreLe a b = true)
    (hbc : scoreLe b c = true) : scoreLe a c = true := by
  simp only [scoreLe, decide_eq_true_eq] at *
  rcases hab with h1 | ⟨h1, h1'⟩ <;> rcases hbc with h2 | ⟨h2, h2'⟩
  · exact Or.inl (lt_trans h2 h1)
  · exact Or.inl (h2 ▸ h1)
  · exact Or.inl (by rw [h1]; exact h2)
  · exact Or.inr ⟨h1.trans h2, le_trans h1' h2'⟩

theorem scoreLe_total (a b : ℕ × ℚ) : (scoreLe a b || scoreLe b a) = true := by
  simp only [scoreLe, Bool.or_eq_true, decide_eq_true_eq]
  rcases lt_trichotomy a.2 b.2 with h | h | h
  · right; exact Or.inl h
  · rcases le_total a.1 b.1 with h' | h'
    · left; exact Or.inr ⟨h, h'⟩
    · right; exact Or.inr ⟨h.symm, h'⟩
  · left; exact Or.inl h

/-- C7: every iteration scores exactly the `n-1` adjacent positions, the
scores are sorted descending with the position index as tie-break (lower
position first), the candidate list is the first `top_k` positions of
that order, and `top_k` defaults to `n-1` and is clamped to at most
`n-1`. -/
theorem candidate_ranking (times : Mat) (jobTotals : List ℚ) (st : St)
    (l : List (ℕ × ℚ)) (k n : ℕ) :
    ((scoreAll times jobTotals st).map Prod.fst =
      List.range (st.seq.length - 1)) ∧
    (sortScores l).Perm l ∧
    (sortScores l).Pairwise (fun a b => b.2 < a.2 ∨ (a.2 = b.2 ∧ a.1 ≤ b.1)) ∧
    topPositions (sortScores l) k = ((sortScores l).map Prod.fst).take k ∧
    resolveTopK none n = n - 1 ∧
    resolveTopK (some k) n = min k (n - 1) ∧
    resolveTopK (some k) n ≤ n - 1 := by
  refine ⟨?_, ?_, ?_, ?_, rfl, rfl, ?_⟩
  · rw [scoreAll, List.map_map]
    have hcomp : (Prod.fst ∘ fun pos => (pos,
        score_adjacent_pair st.seq pos times st.bn jobTotals st.seq.length
          st.bnProc st.bnThr)) = fun pos => pos := rfl
    rw [hcomp]
    exact List.map_id _
  · exact List.mergeSort_perm l scoreLe
  · have hs := List.sorted_mergeSort scoreLe_trans scoreLe_total l
    refine hs.imp ?_
    intro a b h
    simpa [scoreLe, decide_eq_true_eq] using h
  · simp [topPositions, List.map_take]
  · simp [resolveTopK]

theorem lastOr_cons (r : List ℚ) (L : List (List ℚ)) (o : Option (List ℚ)) :
    lastOr (r :: L) o = lastOr L (some r) := by
  cases L with
  | nil => rfl
  | cons s ls =>
    cases h : (s :: ls).getLast? with
    | none => exact absurd (List.getLast?_eq_none_iff.mp h) (by simp)
    | some x => rw [lastOr, List.getLast?_cons_cons, h, lastOr, h]

theorem ctRows_append (times : Mat) (xs : List ℕ) :
    ∀ (ys : List ℕ) (o : Option (List ℚ)),
    ctRows times o (xs ++ ys) =
      ctRows times o xs ++ ctRows times (lastOr (ctRows times o xs) o) ys := by
  induction xs with
  | nil => intro ys o; cases o <;> simp [ctRows, lastOr]
  | cons j rest ih =>
    intro ys o
    cases o with
    | none =>
      simp only [List.cons_append, ctRows, List.append_eq]
      rw [ih ys (some (firstRow (procRow times j))), lastOr_cons]
    | some prev =>
      simp only [List.cons_append, ctRows, List.append_eq]
      rw [ih ys (some (nextRow prev (procRow times j))), lastOr_cons]

theorem swapPair_cons_succ (a : ℕ) (rest : List ℕ) (n : ℕ) :
    swapPair (a :: rest) (n + 1) = a :: swapPair rest n := by
  cases rest <;> rfl

theorem swapPair_decomp (seq : List ℕ) : ∀ p,
    swapPair seq p = seq.take p ++ swapPair (seq.drop p) 0 := by
  induction seq with
  | nil => intro p; cases p <;> rfl
  | cons a rest ih =>
    intro p
    cases p with
    | zero => rfl
    | succ n =>
      rw [swapPair_cons_succ, ih n]
      rfl

theorem swapPair_perm (seq : List ℕ) : ∀ p, (swapPair seq p).Perm seq := by
  induction seq with
  | nil => intro p; cases p <;> exact List.Perm.refl _
  | cons a rest ih =>
    intro p
    cases p with
    | zero =>
      cases rest with
      | nil => exact List.Perm.refl _
      | cons b bs => exact List.Perm.swap a b bs
    | succ n =>
      rw [swapPair_cons_succ]
      exact List.Perm.cons a (ih n)

theorem swapPair_length (seq : List ℕ) (p : ℕ) :
    (swapPair seq p).length = seq.length :=
  (swapPair_perm seq p).length_eq

theorem swapPair_mem {seq : List ℕ} {p j : ℕ} (h : j ∈ swapPair seq p) :
    j ∈ seq :=
  (swapPair_perm seq p).mem_iff.mp h

theorem swapPair_swapPair (seq : List ℕ) : ∀ p,
    swapPair (swapPair seq p) p = seq := by
  induction seq with
  | nil => intro p; cases p <;> rfl
  | cons a rest ih =>
    intro p
    cases p with
    | zero =>
      cases rest with
      | nil => rfl
      | cons b bs => rfl
    | succ n =>
      rw [swapPair_cons_succ, swapPair_cons_succ, ih n]

theorem completion_times_eq {times : Mat} {seq : List ℕ} (htne : times ≠ [])
    (hsne : seq ≠ []) :
    calculate_completion_times times seq = ctRows times none seq := by
  rw [calculate_completion_times, calculate_completion_matrix,
    if_neg (by simp [htne, hsne])]

theorem makespan_eq_lastLast {times : Mat} {seq : List ℕ} (htne : times ≠ [])
    (hsne : seq ≠ []) (hvalid : ∀ j ∈ seq, j < times.length) :
    calculate_makespan times seq = lastLast (ctRows times none seq) := by
  have hany : seq.any (fun j => decide (times.length ≤ j)) = false := by
    rw [List.any_eq_false]
    intro j hj
    simpa using Nat.not_le.mpr (hvalid j hj)
  rw [calculate_makespan, if_neg (by simp [htne, hsne]), if_neg (by simp [hany])]

theorem ctRows_exists_lastLast {times : Mat} {m : ℕ} {seq : List ℕ}
    (hrect : Rect times m) (hm : 0 < m) (hsne : seq ≠ [])
    (hvalid : ∀ j ∈ seq, j < times.length) :
    ∃ v, lastLast (ctRows times none seq) = .ok v := by
  have hrows : ∀ row ∈ ctRows times none seq, row.length = m := by
    refine ctRows_row_length times seq none ?_ (by intro r hr; cases hr)
    intro j hj
    exact procRow_length_of_rect hrect (hvalid j hj)
  have hne : ctRows times none seq ≠ [] := by
    intro hc
    have hl := ctRows_length times seq none
    rw [hc] at hl
    exact hsne (List.length_eq_zero.mp hl.symm)
  exact ⟨_, lastLast_of_good hne hrows hm⟩

/-- The core equivalence: on a consistent completion matrix and an
in-range position, the delta recomputation produces exactly the full
completion-time matrix of the swapped sequence and its makespan. -/
theorem delta_master {times : Mat} {m : ℕ} {seq : List ℕ} {p : ℕ}
    (hrect : Rect times m) (hm : 0 < m) (htne : times ≠ [])
    (hvalid : ∀ j ∈ seq, j < times.length) (hp : p + 2 ≤ seq.length) :
    ∃ v,
      calculate_makespan_delta times seq p
        (calculate_completion_times times seq) =
        .ok (v, calculate_completion_times times (swapPair seq p)) ∧
      calculate_makespan times (swapPair seq p) = .ok v := by
  have hsne : seq ≠ [] := by
    intro hc
    rw [hc] at hp
    simp at hp
  have hs'len : (swapPair seq p).length = seq.length := swapPair_length seq p
  have hs'ne : swapPair seq p ≠ [] := by
    intro hc
    rw [hc] at hs'len
    exact hsne (List.length_eq_zero.mp hs'len.symm)
  have hs'valid : ∀ j ∈ swapPair seq p, j < times.length := by
    intro j hj
    exact hvalid j (swapPair_mem hj)
  have hple : p ≤ seq.length := by omega
  have hAlen : (seq.take p).length = p := by
    rw [List.length_take]
    omega
  have hctAlen : (ctRows times none (seq.take p)).length = p := by
    rw [ctRows_length, hAlen]
  have htake : (ctRows times none seq).take p =
      ctRows times none (seq.take p) := by
    conv_lhs => rw [← List.take_append_drop p seq]
    rw [ctRows_append]
    exact List.take_left' hctAlen
  have hs'_decomp : swapPair seq p =
      seq.take p ++ swapPair (seq.drop p) 0 := swapPair_decomp seq p
  have hs'_drop : (swapPair seq p).drop p = swapPair (seq.drop p) 0 := by
    rw [hs'_decomp]
    exact List.drop_left' hAlen
  have hprev :
      (if p = 0 then (none : Option (List ℚ))
       else (ctRows times none (seq.take p)).getLast?) =
      lastOr (ctRows times none (seq.take p)) none := by
    by_cases hp0 : p = 0
    · subst hp0
      simp [ctRows, lastOr]
    · rw [if_neg hp0]
      cases h : (ctRows times none (seq.take p)).getLast? with
      | none => rw [lastOr, h]
      | some r => rw [lastOr, h]
  have hnewCt : (ctRows times none seq).take p ++
      ctRows times
        (if p = 0 then none else ((ctRows times none seq).take p).getLast?)
        ((swapPair seq p).drop p) =
      ctRows times none (swapPair seq p) := by
    conv_rhs => rw [hs'_decomp, ctRows_append]
    rw [htake, hprev, hs'_drop]
  obtain ⟨v, hv⟩ := ctRows_exists_lastLast hrect hm hs'ne hs'valid
  refine ⟨v, ?_, ?_⟩
  · have hguard : ¬(seq.length - 1 ≤ p) := by omega
    rw [completion_times_eq htne hsne, completion_times_eq htne hs'ne]
    simp only [calculate_makespan_delta, if_neg hguard]
    rw [hnewCt, hv]
    rfl
  · rw [makespan_eq_lastLast htne hs'ne hs'valid]
    exact hv

/-- C1: on a completion matrix consistent with the sequence and a swap
position in `[0, n-2]`, the delta evaluation returns exactly the makespan
of the fully recomputed swapped sequence. -/
theorem delta_equals_full_recompute {times : Mat} {m : ℕ} {seq : List ℕ}
    {p : ℕ} {ct : List (List ℚ)} (hrect : Rect times m) (hm : 0 < m)
    (htne : times ≠ []) (hvalid : ∀ j ∈ seq, j < times.length)
    (hp : p + 2 ≤ seq.length)
    (hct : ct = calculate_completion_times times seq) :
    Except.map Prod.fst (calculate_makespan_delta times seq p ct) =
      calculate_makespan times (swapPair seq p) := by
  obtain ⟨v, h1, h2⟩ := delta_master hrect hm htne hvalid hp
  rw [hct, h1, h2]
  rfl

theorem delta_equals_full_recompute_witness :
    Except.map Prod.fst (calculate_makespan_delta [[1, 2], [3, 4]] [0, 1] 0
      (calculate_completion_times [[1, 2], [3, 4]] [0, 1])) =
    calculate_makespan [[1, 2], [3, 4]] (swapPair [0, 1] 0) :=
  delta_equals_full_recompute (m := 2)
    (by intro row h; simp at h; rcases h with h | h <;> simp [h])
    (by norm_num) (by simp) (by decide) (by decide) rfl

/-- C9: applying the delta evaluation at `p` and then at `p` again on the
resulting sequence and matrix restores the original makespan (and the
original completion matrix) exactly. -/
theorem delta_self_inverse {times : Mat} {m : ℕ} {seq : List ℕ} {p : ℕ}
    {ct : List (List ℚ)} (hrect : Rect times m) (hm : 0 < m)
    (htne : times ≠ []) (hvalid : ∀ j ∈ seq, j < times.length)
    (hp : p + 2 ≤ seq.length)
    (hct : ct = calculate_completion_times times seq) :
    ∃ mk1 ct1 mk0 ct0,
      calculate_makespan_delta times seq p ct = .ok (mk1, ct1) ∧
      calculate_makespan_delta times (swapPair seq p) p ct1 = .ok (mk0, ct0) ∧
      calculate_makespan times seq = .ok mk0 ∧ ct0 = ct := by
  obtain ⟨v1, h1, _⟩ := delta_master hrect hm htne hvalid hp
  have hs'valid : ∀ j ∈ swapPair seq p, j < times.length := by
    intro j hj
    exact hvalid j (swapPair_mem hj)
  have hp' : p + 2 ≤ (swapPair seq p).length := by
    rw [swapPair_length]
    exact hp
  obtain ⟨v0, h2, h3⟩ := delta_master hrect hm htne hs'valid hp'
  rw [swapPair_swapPair] at h2 h3
  exact ⟨v1, _, v0, _, by rw [hct]; exact h1, h2, h3, hct.symm⟩

theorem delta_self_inverse_witness :
    ∃ mk1 ct1 mk0 ct0,
      calculate_makespan_delta [[1, 2], [3, 4]] [0, 1] 0
        (calculate_completion_times [[1, 2], [3, 4]] [0, 1]) =
        .ok (mk1, ct1) ∧
      calculate_makespan_delta [[1, 2], [3, 4]] (swapPair [0, 1] 0) 0 ct1 =
        .ok (mk0, ct0) ∧
      calculate_makespan [[1, 2], [3, 4]] [0, 1] = .ok mk0 ∧
      ct0 = calculate_completion_times [[1, 2], [3, 4]] [0, 1] :=
  delta_self_inverse (m := 2)
    (by intro row h; simp at h; rcases h with h | h <;> simp [h])
    (by norm_num) (by simp) (by decide) (by decide) rfl

theorem swap_adjacent_of_delta_ok {times : Mat} {seq : List ℕ} {p : ℕ}
    {ct : List (List ℚ)} {r : ℚ × List (List ℚ)}
    (h : calculate_makespan_delta times seq p ct = .ok r) :
    swap_adjacent seq p = .ok (swapPair seq p) := by
  rw [calculate_makespan_delta] at h
  by_cases hg : seq.length - 1 ≤ p
  · rw [if_pos hg] at h
    simp at h
  · rw [swap_adjacent, if_neg hg]

/-- C5: the guided-perturbation block.  Once the no-improvement streak
reaches 2, the head of the latest (descending-sorted) score list is the
applied swap: it is accepted (sequence swapped, makespan and matrix
replaced, streak reset to 0, best tracked) exactly when the delta makespan
does not exceed the current makespan by more than 0.2% of it, and rejected
with the state unchanged (apart from the streak bump) otherwise; with no
candidate position the search breaks. -/
theorem perturbation_guardrail (times : Mat) (st : St) (p : ℕ) (s : ℚ)
    (rest : List (ℕ × ℚ)) (pmk : ℚ) (pct : List (List ℚ))
    (hstreak : 1 ≤ st.streak) :
    (perturbPhase times [] st =
      .ok ({ st with streak := st.streak + 1 }, false)) ∧
    (calculate_makespan_delta times st.seq p st.ct = .ok (pmk, pct) →
      (pmk ≤ st.curMk + (0.002 : ℚ) * st.curMk →
        perturbPhase times ((p, s) :: rest) st =
          .ok ((if pmk < st.bestMk then
            { st with
                seq := swapPair st.seq p
                curMk := pmk
                ct := pct
                streak := 0
                bestMk := pmk
                bestSeq := swapPair st.seq p }
          else
            { st with
                seq := swapPair st.seq p
                curMk := pmk
                ct := pct
                streak := 0 }), true)) ∧
      (st.curMk + (0.002 : ℚ) * st.curMk < pmk →
        perturbPhase times ((p, s) :: rest) st =
          .ok ({ st with streak := st.streak + 1 }, true))) := by
  have htrig : 2 ≤ st.streak + 1 := by omega
  constructor
  · rw [perturbPhase]
    simp only [if_pos htrig]
  · intro hdelta
    have hswap : swap_adjacent st.seq p = .ok (swapPair st.seq p) :=
      swap_adjacent_of_delta_ok hdelta
    constructor
    · intro hle
      rw [perturbPhase]
      simp only [if_pos htrig, hdelta, bindOk, if_pos hle, hswap]
    · intro hgt
      rw [perturbPhase]
      simp only [if_pos htrig, hdelta, bindOk, if_neg (not_le.mpr hgt)]

theorem perturbation_guardrail_witness :
    perturbPhase [[1, 1], [1, 1]] [(0, 5)]
      (St.mk [0, 1] 3 [0, 1] 3 [[1, 2], [2, 3]] 0 [1, 1] 1 1 0 0) =
      .ok (St.mk [1, 0] 3 [0, 1] 3 [[1, 2], [2, 3]] 0 [1, 1] 1 0 0 0, true) := by
  have h := ((perturbation_guardrail [[1, 1], [1, 1]]
      (St.mk [0, 1] 3 [0, 1] 3 [[1, 2], [2, 3]] 0 [1, 1] 1 1 0 0) 0 5 [] 3
      [[1, 2], [2, 3]] (by norm_num)).2 (by norm_num [calculate_makespan_delta,
        ctRows, firstRow, firstRowGo, nextRow, nextRowGo, procRow, lastLast,
        swapPair, lastOr, Except.map])).1 (by norm_num)
  rw [h, if_neg (by norm_num : ¬(3 : ℚ) < 3)]
  rfl

theorem delta_ok_char {times : Mat} {m : ℕ} {seq : List ℕ} {p : ℕ}
    {ct : List (List ℚ)} {r : ℚ × List (List ℚ)} (hrect : Rect times m)
    (hm : 0 < m) (htne : times ≠ [])
    (hvalid : ∀ j ∈ seq, j < times.length)
    (hct : ct = calculate_completion_times times seq)
    (hok : calculate_makespan_delta times seq p ct = .ok r) :
    p + 2 ≤ seq.length ∧
    r.2 = calculate_completion_times times (swapPair seq p) ∧
    calculate_makespan times (swapPair seq p) = .ok r.1 ∧
    swap_adjacent seq p = .ok (swapPair seq p) := by
  have hp : p + 2 ≤ seq.length := by
    by_contra hc
    have hg : seq.length - 1 ≤ p := by omega
    rw [calculate_makespan_delta, if_pos hg] at hok
    simp at hok
  obtain ⟨v, h1, h2⟩ := delta_master hrect hm htne hvalid hp
  rw [hct, h1] at hok
  cases hok
  refine ⟨hp, rfl, h2, ?_⟩
  rw [swap_adjacent, if_neg (by omega)]

theorem goodTriple_swap {times : Mat} {m : ℕ} {seq : List ℕ} {mk : ℚ}
    {ct : List (List ℚ)} {p : ℕ} {r : ℚ × List (List ℚ)} (hrect : Rect times m)
    (hm : 0 < m) (htne : times ≠ [])
    (ht : GoodTriple times seq mk ct)
    (hok : calculate_makespan_delta times seq p ct = .ok r) :
    GoodTriple times (swapPair seq p) r.1 r.2 ∧
    swap_adjacent seq p = .ok (swapPair seq p) := by
  obtain ⟨hlen, hvalid, hct, _⟩ := ht
  obtain ⟨_, hr2, hr1, hsw⟩ := delta_ok_char hrect hm htne hvalid hct hok
  refine ⟨⟨?_, ?_, hr2, hr1⟩, hsw⟩
  · rw [swapPair_length, hlen]
  · intro j hj
    exact hvalid j (swapPair_mem hj)

theorem firstImprove_sel {times : Mat} {seq : List ℕ} {mk : ℚ}
    {ct : List (List ℚ)} :
    ∀ (l : List ℕ) {sel : Option (ℕ × ℚ × List (List ℚ))},
    firstImprove times seq mk ct l = .ok sel →
    ∀ pos a c, sel = some (pos, a, c) →
      calculate_makespan_delta times seq pos ct = .ok (a, c) ∧ a < mk := by
  intro l
  induction l with
  | nil =>
    intro sel h pos a c hsel
    rw [firstImprove] at h
    cases h
    cases hsel
  | cons q rest ih =>
    intro sel h pos a c hsel
    rw [firstImprove] at h
    cases hd : calculate_makespan_delta times seq q ct with
    | error e =>
      rw [hd, bindErr] at h
      cases h
    | ok r =>
      rw [hd, bindOk] at h
      by_cases hlt : r.1 < mk
      · rw [if_pos hlt] at h
        cases h
        cases hsel
        exact ⟨hd, hlt⟩
      · rw [if_neg hlt] at h
        exact ih h pos a c hsel

theorem bestImprove_inv {times : Mat} {seq : List ℕ} {ct : List (List ℚ)} :
    ∀ (l : List ℕ) (bm : ℚ) (acc : Option (ℕ × List (List ℚ)))
      {res : ℚ × Option (ℕ × List (List ℚ))},
    (∀ pos c, acc = some (pos, c) →
      calculate_makespan_delta times seq pos ct = .ok (bm, c)) →
    bestImprove times seq ct l bm acc = .ok res →
    (∀ pos c, res.2 = some (pos, c) →
      calculate_makespan_delta times seq pos ct = .ok (res.1, c)) ∧
    res.1 ≤ bm := by
  intro l
  induction l with
  | nil =>
    intro bm acc res hacc h
    rw [bestImprove] at h
    cases h
    exact ⟨hacc, le_refl bm⟩
  | cons q rest ih =>
    intro bm acc res hacc h
    rw [bestImprove] at h
    cases hd : calculate_makespan_delta times seq q ct with
    | error e =>
      rw [hd, bindErr] at h
      cases h
    | ok r =>
      rw [hd, bindOk] at h
      by_cases hlt : r.1 < bm
      · rw [if_pos hlt] at h
        have hstep : ∀ pos c, (some (q, r.2) : Option (ℕ × List (List ℚ))) =
            some (pos, c) →
            calculate_makespan_delta times seq pos ct = .ok (r.1, c) := by
          intro pos c hc
          cases hc
          rw [hd]
        obtain ⟨h1, h2⟩ := ih r.1 (some (q, r.2)) hstep h
        exact ⟨h1, le_trans h2 (le_of_lt hlt)⟩
      · rw [if_neg hlt] at h
        exact ih bm acc hacc h

theorem selectSwap_sel {times : Mat} {mode : String} {seq : List ℕ} {mk : ℚ}
    {ct : List (List ℚ)} {tp : List ℕ}
    {sel : Option (ℕ × ℚ × List (List ℚ))}
    (h : selectSwap times mode seq mk ct tp = .ok sel) :
    ∀ pos a c, sel = some (pos, a, c) →
      calculate_makespan_delta times seq pos ct = .ok (a, c) := by
  intro pos a c hsel
  rw [selectSwap] at h
  by_cases hmode : mode = "first"
  · rw [if_pos hmode] at h
    exact (firstImprove_sel tp h pos a c hsel).1
  · rw [if_neg hmode] at h
    cases hb : bestImprove times seq ct tp mk none with
    | error e =>
      rw [hb, bindErr] at h
      cases h
    | ok r =>
      rw [hb, bindOk] at h
      obtain ⟨h1, _⟩ := bestImprove_inv tp mk none (by intro _ _ hc; cases hc) hb
      cases hr2 : r.2 with
      | none =>
        simp only [hr2] at h
        cases h
        cases hsel
      | some pc =>
        obtain ⟨pos', c'⟩ := pc
        simp only [hr2] at h
        cases h
        cases hsel
        exact h1 _ _ hr2

theorem maybeRecompute_goodSt {ctx : Ctx} {st : St}
    (h : GoodSt ctx.times st) : GoodSt ctx.times (maybeRecompute ctx st) := by
  rw [maybeRecompute]
  by_cases hr : ctx.recompute
  · rw [if_pos hr]
    exact h
  · rw [if_neg hr]
    exact h

theorem maybeRecompute_bestMk (ctx : Ctx) (st : St) :
    (maybeRecompute ctx st).bestMk = st.bestMk := by
  rw [maybeRecompute]
  by_cases hr : ctx.recompute
  · rw [if_pos hr]
  · rw [if_neg hr]

theorem maybeRecomputeBnOnly_goodSt {ctx : Ctx} {st : St}
    (h : GoodSt ctx.times st) :
    GoodSt ctx.times (maybeRecomputeBnOnly ctx st) := by
  rw [maybeRecomputeBnOnly]
  by_cases hr : ctx.recompute
  · rw [if_pos hr]
    exact h
  · rw [if_neg hr]
    exact h

theorem maybeRecomputeBnOnly_bestMk (ctx : Ctx) (st : St) :
    (maybeRecomputeBnOnly ctx st).bestMk = st.bestMk := by
  rw [maybeRecomputeBnOnly]
  by_cases hr : ctx.recompute
  · rw [if_pos hr]
  · rw [if_neg hr]

theorem goodSt_apply_swap {times : Mat} {m : ℕ} {st : St} {pos : ℕ}
    {newMk : ℚ} {newCt : List (List ℚ)} (hrect : Rect times m) (hm : 0 < m)
    (htne : times ≠ []) (hG : GoodSt times st)
    (hd : calculate_makespan_delta times st.seq pos st.ct = .ok (newMk, newCt)) :
    swap_adjacent st.seq pos = .ok (swapPair st.seq pos) ∧
    GoodSt times
      { st with
          seq := swapPair st.seq pos
          curMk := newMk
          ct := newCt } := by
  obtain ⟨ht, hb1, hb2, hb3⟩ := hG
  obtain ⟨ht', hsw⟩ := goodTriple_swap hrect hm htne ht hd
  exact ⟨hsw, ht', hb1, hb2, hb3⟩

theorem goodSt_track_best {times : Mat} {st : St} (hG : GoodSt times st) :
    GoodSt times { st with bestMk := st.curMk, bestSeq := st.seq } :=
  ⟨hG.1, hG.1.1, hG.1.2.1, hG.1.2.2.2⟩

theorem intensifyLoop_good {ctx : Ctx} {m : ℕ} (hrect : Rect ctx.times m)
    (hm : 0 < m) (htne : ctx.times ≠ []) :
    ∀ (f : ℕ) (st : St) (scores : List (ℕ × ℚ)) (tp : List ℕ) (impr : Bool)
      {res : St × List (ℕ × ℚ) × List ℕ × Bool},
    GoodSt ctx.times st →
    intensifyLoop ctx f st scores tp impr = .ok res →
    GoodSt ctx.times res.1 ∧ res.1.bestMk ≤ st.bestMk := by
  intro f
  induction f with
  | zero =>
    intro st scores tp impr res hG h
    rw [intensifyLoop] at h
    cases h
    exact ⟨hG, le_refl _⟩
  | succ f ih =>
    intro st scores tp impr res hG h
    simp only [intensifyLoop] at h
    by_cases hbt : (budgetHit ctx st.tick).1
    · rw [if_pos hbt] at h
      cases h
      exact ⟨hG, le_refl _⟩
    · rw [if_neg hbt] at h
      cases hE : selectSwap ctx.times ctx.mode st.seq st.curMk st.ct tp with
      | error e =>
        rw [hE, bindErr] at h
        cases h
      | ok sel =>
        rw [hE, bindOk] at h
        cases sel with
        | none =>
          simp only [] at h
          cases h
          exact ⟨hG, le_refl _⟩
        | some x =>
          obtain ⟨pos, newMk, newCt⟩ := x
          simp only [] at h
          by_cases hlt : newMk < st.curMk
          · rw [if_pos hlt] at h
            have hd : calculate_makespan_delta ctx.times st.seq pos st.ct =
                .ok (newMk, newCt) := selectSwap_sel hE pos newMk newCt rfl
            have hsw : swap_adjacent st.seq pos = .ok (swapPair st.seq pos) :=
              swap_adjacent_of_delta_ok hd
            rw [hsw, bindOk] at h
            obtain ⟨_, hG2⟩ := goodSt_apply_swap hrect hm htne hG hd
            by_cases hbest : newMk < st.bestMk
            · rw [if_pos hbest] at h
              obtain ⟨hres, hle⟩ := ih _ _ _ _
                (by exact maybeRecompute_goodSt (goodSt_track_best hG2)) h
              refine ⟨hres, le_trans hle ?_⟩
              rw [maybeRecompute_bestMk]
              exact le_of_lt hbest
            · rw [if_neg hbest] at h
              obtain ⟨hres, hle⟩ := ih _ _ _ _
                (by exact maybeRecompute_goodSt hG2) h
              refine ⟨hres, le_trans hle ?_⟩
              rw [maybeRecompute_bestMk]
          · rw [if_neg hlt] at h
            cases h
            exact ⟨hG, le_refl _⟩

theorem bind_ok_ex {ε α β : Type} {e : Except ε α} {f : α → Except ε β}
    {b : β} (h : e >>= f = .ok b) : ∃ a, e = .ok a ∧ f a = .ok b := by
  cases e with
  | error er =>
    rw [bindErr] at h
    cases h
  | ok a =>
    rw [bindOk] at h
    exact ⟨a, rfl, h⟩

theorem makespan_ok_valid {times : Mat} {seq : List ℕ} {mk : ℚ}
    (htne : times ≠ []) (hsne : seq ≠ [])
    (h : calculate_makespan times seq = .ok mk) :
    ∀ j ∈ seq, j < times.length := by
  by_contra hc
  push_neg at hc
  obtain ⟨j, hj, hge⟩ := hc
  rw [(makespan_validation times seq).2.2 htne hsne ⟨j, hj, hge⟩] at h
  cases h

theorem perturbPhase_good {times : Mat} {m : ℕ} (hrect : Rect times m)
    (hm : 0 < m) (htne : times ≠ []) (scores : List (ℕ × ℚ)) {st : St}
    {res : St × Bool} (hG : GoodSt times st)
    (h : perturbPhase times scores st = .ok res) :
    GoodSt times res.1 ∧ res.1.bestMk ≤ st.bestMk := by
  simp only [perturbPhase] at h
  by_cases htrig : 2 ≤ st.streak + 1
  · rw [if_pos htrig] at h
    cases scores with
    | nil =>
      cases h
      exact ⟨hG, le_refl _⟩
    | cons hd0 tl =>
      obtain ⟨bestPos, s⟩ := hd0
      simp only [] at h
      cases hdel : calculate_makespan_delta times st.seq bestPos st.ct with
      | error e =>
        rw [hdel, bindErr] at h
        cases h
      | ok r =>
        rw [hdel, bindOk] at h
        by_cases hle : r.1 ≤ st.curMk + (0.002 : ℚ) * st.curMk
        · rw [if_pos hle] at h
          have hsw : swap_adjacent st.seq bestPos =
              .ok (swapPair st.seq bestPos) := swap_adjacent_of_delta_ok hdel
          rw [hsw, bindOk] at h
          obtain ⟨_, hG2⟩ := goodSt_apply_swap hrect hm htne hG hdel
          by_cases hbest : r.1 < st.bestMk
          · rw [if_pos hbest] at h
            cases h
            refine ⟨by exact goodSt_track_best hG2, ?_⟩
            exact le_of_lt hbest
          · rw [if_neg hbest] at h
            cases h
            exact ⟨by exact hG2, le_refl _⟩
        · rw [if_neg hle] at h
          cases h
          exact ⟨hG, le_refl _⟩
  · rw [if_neg htrig] at h
    cases h
    exact ⟨hG, le_refl _⟩

theorem insertGo_good {times : Mat} {m : ℕ} (hrect : Rect times m)
    (hm : 0 < m) (htne : times ≠ []) :
    ∀ (ps : List ℕ) (seq : List ℕ) (mk : ℚ) (ct : List (List ℚ))
      {res : List ℕ × ℚ × List (List ℚ)},
    GoodTriple times seq mk ct →
    insertGo times ps seq mk ct = .ok res →
    GoodTriple times res.1 res.2.1 res.2.2 := by
  intro ps
  induction ps with
  | nil =>
    intro seq mk ct res hT h
    rw [insertGo] at h
    cases h
    exact hT
  | cons sp rest ih =>
    intro seq mk ct res hT h
    rw [insertGo] at h
    cases hd : calculate_makespan_delta times seq sp ct with
    | error e =>
      rw [hd, bindErr] at h
      cases h
    | ok r =>
      rw [hd, bindOk] at h
      obtain ⟨hT', _⟩ := goodTriple_swap hrect hm htne hT hd
      exact ih _ _ _ hT' h

theorem evaluate_insertion_good {times : Mat} {m : ℕ} (hrect : Rect times m)
    (hm : 0 < m) (htne : times ≠ []) {seq : List ℕ} {mk : ℚ}
    {ct : List (List ℚ)} {a b : ℕ} {res : List ℕ × ℚ × List (List ℚ)}
    (hT : GoodTriple times seq mk ct)
    (h : evaluate_insertion_delta times seq a b ct = .ok res) :
    GoodTriple times res.1 res.2.1 res.2.2 := by
  obtain ⟨hlen, hvalid, hct, hmk⟩ := hT
  have hnj : 2 ≤ times.length ∨ times.length ≤ 1 := by omega
  have hsne8 : seq = [] ∨ seq ≠ [] := by tauto
  by_cases hsne : seq = []
  · have hctv : ct = [] := by
      rw [hct, calculate_completion_times, calculate_completion_matrix,
        if_pos (Or.inr hsne)]
    rw [evaluate_insertion_delta] at h
    rw [if_pos hctv] at h
    have hstop : a = b ∨ seq.length ≤ 1 := by
      right
      rw [hsne]
      simp
    rw [hmk, bindOk, if_pos hstop] at h
    cases h
    exact ⟨hlen, hvalid, hct, hmk⟩
  · have hctne : ct ≠ [] := by
      rw [hct, completion_times_eq htne hsne]
      intro hc
      have hl := ctRows_length times seq none
      rw [hc] at hl
      exact hsne (List.length_eq_zero.mp hl.symm)
    have hll : lastLast ct = .ok mk := by
      rw [hct, completion_times_eq htne hsne,
        ← makespan_eq_lastLast htne hsne hvalid]
      exact hmk
    rw [evaluate_insertion_delta, if_neg hctne, hll, bindOk] at h
    by_cases hstop : a = b ∨ seq.length ≤ 1
    · rw [if_pos hstop] at h
      cases h
      exact ⟨hlen, hvalid, hct, hmk⟩
    · rw [if_neg hstop] at h
      exact insertGo_good hrect hm htne _ _ _ _ ⟨hlen, hvalid, hct, hmk⟩ h

theorem insertTryTargets_good {times : Mat} {m : ℕ} (hrect : Rect times m)
    (hm : 0 < m) (htne : times ≠ []) (pos : ℕ) :
    ∀ (ts : List ℕ) {st : St} {res : St × Bool},
    GoodSt times st →
    insertTryTargets times pos ts st = .ok res →
    GoodSt times res.1 ∧ res.1.bestMk ≤ st.bestMk := by
  intro ts
  induction ts with
  | nil =>
    intro st res hG h
    rw [insertTryTargets] at h
    cases h
    exact ⟨hG, le_refl _⟩
  | cons t rest ih =>
    intro st res hG h
    simp only [insertTryTargets] at h
    cases he : evaluate_insertion_delta times st.seq pos t st.ct with
    | error e =>
      rw [he, bindErr] at h
      cases h
    | ok r =>
      rw [he, bindOk] at h
      have hT' : GoodTriple times r.1 r.2.1 r.2.2 :=
        evaluate_insertion_good hrect hm htne hG.1 he
      by_cases hlt : r.2.1 < st.curMk
      · rw [if_pos hlt] at h
        by_cases hbest : r.2.1 < st.bestMk
        · rw [if_pos hbest] at h
          cases h
          refine ⟨⟨hT', hT'.1, hT'.2.1, hT'.2.2.2⟩, le_of_lt hbest⟩
        · rw [if_neg hbest] at h
          cases h
          exact ⟨⟨hT', hG.2.1, hG.2.2.1, hG.2.2.2⟩, le_refl _⟩
      · rw [if_neg hlt] at h
        exact ih hG h

theorem insertTryCandidates_good {times : Mat} {m : ℕ} (hrect : Rect times m)
    (hm : 0 < m) (htne : times ≠ []) (n : ℕ) :
    ∀ (cand : List ℕ) {st : St} {res : St × Bool},
    GoodSt times st →
    insertTryCandidates times n cand st = .ok res →
    GoodSt times res.1 ∧ res.1.bestMk ≤ st.bestMk := by
  intro cand
  induction cand with
  | nil =>
    intro st res hG h
    rw [insertTryCandidates] at h
    cases h
    exact ⟨hG, le_refl _⟩
  | cons pos ps ih =>
    intro st res hG h
    simp only [insertTryCandidates] at h
    obtain ⟨r, hr, h⟩ := bind_ok_ex h
    obtain ⟨hGr, hler⟩ := insertTryTargets_good hrect hm htne pos _ hG hr
    by_cases hr2 : r.2
    · rw [if_pos hr2] at h
      cases h
      exact ⟨hGr, hler⟩
    · rw [if_neg hr2] at h
      obtain ⟨hGres, hle⟩ := ih hGr h
      exact ⟨hGres, le_trans hle hler⟩

theorem windowSweep_good {ctx : Ctx} {m : ℕ} (hrect : Rect ctx.times m)
    (hm : 0 < m) (htne : ctx.times ≠ []) :
    ∀ (ps : List ℕ) {st : St} {improved : Bool} {res : St × Bool},
    GoodSt ctx.times st →
    windowSweep ctx ps st improved = .ok res →
    GoodSt ctx.times res.1 ∧ res.1.bestMk ≤ st.bestMk := by
  intro ps
  induction ps with
  | nil =>
    intro st improved res hG h
    rw [windowSweep] at h
    cases h
    exact ⟨hG, le_refl _⟩
  | cons pos rest ih =>
    intro st improved res hG h
    simp only [windowSweep] at h
    cases hd : calculate_makespan_delta ctx.times st.seq pos st.ct with
    | error e =>
      rw [hd, bindErr] at h
      cases h
    | ok r =>
      rw [hd, bindOk] at h
      by_cases hlt : r.1 < st.curMk
      · rw [if_pos hlt] at h
        have hsw : swap_adjacent st.seq pos = .ok (swapPair st.seq pos) :=
          swap_adjacent_of_delta_ok hd
        rw [hsw, bindOk] at h
        have hdp : calculate_makespan_delta ctx.times st.seq pos st.ct =
            .ok (r.1, r.2) := by rw [hd]
        obtain ⟨_, hG2⟩ := goodSt_apply_swap hrect hm htne hG hdp
        by_cases hbest : r.1 < st.bestMk
        · rw [if_pos hbest] at h
          obtain ⟨hres, hle⟩ := ih
            (by exact maybeRecomputeBnOnly_goodSt (goodSt_track_best hG2)) h
          refine ⟨hres, le_trans hle ?_⟩
          rw [maybeRecomputeBnOnly_bestMk]
          exact le_of_lt hbest
        · rw [if_neg hbest] at h
          obtain ⟨hres, hle⟩ := ih (by exact maybeRecomputeBnOnly_goodSt hG2) h
          refine ⟨hres, le_trans hle ?_⟩
          rw [maybeRecomputeBnOnly_bestMk]
      · rw [if_neg hlt] at h
        exact ih hG h

theorem windowLoop_good {ctx : Ctx} {m : ℕ} (hrect : Rect ctx.times m)
    (hm : 0 < m) (htne : ctx.times ≠ []) (lo hi : ℕ) :
    ∀ (f : ℕ) {st : St} {res : St},
    GoodSt ctx.times st →
    windowLoop ctx lo hi f st = .ok res →
    GoodSt ctx.times res ∧ res.bestMk ≤ st.bestMk := by
  intro f
  induction f with
  | zero =>
    intro st res hG h
    rw [windowLoop] at h
    cases h
    exact ⟨hG, le_refl _⟩
  | succ f ih =>
    intro st res hG h
    simp only [windowLoop] at h
    obtain ⟨r, hr, h⟩ := bind_ok_ex h
    obtain ⟨hGr, hler⟩ := windowSweep_good hrect hm htne _ hG hr
    by_cases hr2 : r.2
    · rw [if_pos hr2] at h
      obtain ⟨hGres, hle⟩ := ih hGr h
      exact ⟨hGres, le_trans hle hler⟩
    · rw [if_neg hr2] at h
      cases h
      exact ⟨hGr, hler⟩

theorem windowReopt_good {ctx : Ctx} {m : ℕ} (hrect : Rect ctx.times m)
    (hm : 0 < m) (htne : ctx.times ≠ []) {st : St} {res : St}
    (hG : GoodSt ctx.times st) (h : windowReopt ctx st = .ok res) :
    GoodSt ctx.times res ∧ res.bestMk ≤ st.bestMk := by
  simp only [windowReopt] at h
  cases hs : sortScores (scoreAll ctx.times ctx.jobTotals st) with
  | nil =>
    rw [hs] at h
    cases h
  | cons hd0 tl =>
    obtain ⟨focus, s⟩ := hd0
    rw [hs] at h
    exact windowLoop_good hrect hm htne _ _ _ hG h

theorem iterationBody_good {ctx : Ctx} {m : ℕ} (hrect : Rect ctx.times m)
    (hm : 0 < m) (htne : ctx.times ≠ []) {st : St} {res : St × Bool}
    (hG : GoodSt ctx.times st) (h : iterationBody ctx st = .ok res) :
    GoodSt ctx.times res.1 ∧ res.1.bestMk ≤ st.bestMk := by
  simp only [iterationBody] at h
  obtain ⟨r, hI, h⟩ := bind_ok_ex h
  obtain ⟨hGr, hler⟩ := intensifyLoop_good hrect hm htne _ _ _ _ _ (by exact hG) hI
  obtain ⟨p, hP, h⟩ := bind_ok_ex h
  have hGp : GoodSt ctx.times p.1 ∧ p.1.bestMk ≤ r.1.bestMk := by
    by_cases himpr : r.2.2.2
    · rw [if_pos himpr] at hP
      cases hP
      exact ⟨by exact hGr, le_refl _⟩
    · rw [if_neg himpr] at hP
      exact perturbPhase_good hrect hm htne _ hGr hP
  obtain ⟨hGp1, hlep⟩ := hGp
  by_cases hp2 : p.2 = false
  · rw [if_pos hp2] at h
    cases h
    exact ⟨hGp1, le_trans hlep hler⟩
  · rw [if_neg hp2] at h
    obtain ⟨q, hQ, h⟩ := bind_ok_ex h
    have hGq : GoodSt ctx.times q.1 ∧ q.1.bestMk ≤ p.1.bestMk := by
      by_cases hcond : ¬r.2.2.2 = true ∧ 2 ≤ p.1.streak
      · rw [if_pos hcond] at hQ
        obtain ⟨r2, hR2, hQ⟩ := bind_ok_ex hQ
        obtain ⟨hGr2, hler2⟩ :=
          insertTryCandidates_good hrect hm htne _ _ hGp1 hR2
        by_cases hr22 : r2.2
        · rw [if_pos hr22] at hQ
          cases hQ
          exact ⟨by exact hGr2, hler2⟩
        · rw [if_neg hr22] at hQ
          cases hQ
          exact ⟨hGr2, hler2⟩
      · rw [if_neg hcond] at hQ
        cases hQ
        exact ⟨hGp1, le_refl _⟩
    obtain ⟨hGq1, hleq⟩ := hGq
    by_cases hq2 : q.2
    · rw [if_pos hq2] at h
      obtain ⟨stw, hW, h⟩ := bind_ok_ex h
      obtain ⟨hGw, hlew⟩ := windowReopt_good hrect hm htne hGq1 hW
      cases h
      exact ⟨hGw, le_trans hlew (le_trans hleq (le_trans hlep hler))⟩
    · rw [if_neg hq2] at h
      cases h
      exact ⟨hGq1, le_trans hleq (le_trans hlep hler)⟩

theorem searchLoop_good {ctx : Ctx} {m : ℕ} (hrect : Rect ctx.times m)
    (hm : 0 < m) (htne : ctx.times ≠ []) :
    ∀ (r : ℕ) {st : St} {res : St},
    GoodSt ctx.times st →
    searchLoop ctx r st = .ok res →
    GoodSt ctx.times res ∧ res.bestMk ≤ st.bestMk := by
  intro r
  induction r with
  | zero =>
    intro st res hG h
    rw [searchLoop] at h
    cases h
    exact ⟨hG, le_refl _⟩
  | succ r ih =>
    intro st res hG h
    simp only [searchLoop] at h
    by_cases hbt : (budgetHit ctx st.tick).1
    · rw [if_pos hbt] at h
      cases h
      exact ⟨hG, le_refl _⟩
    · rw [if_neg hbt] at h
      obtain ⟨b, hB, h⟩ := bind_ok_ex h
      obtain ⟨hGb, hleb⟩ := iterationBody_good hrect hm htne (by exact hG) hB
      by_cases hb2 : b.2
      · rw [if_pos hb2] at h
        obtain ⟨hGres, hle⟩ := ih hGb h
        exact ⟨hGres, le_trans hle hleb⟩
      · rw [if_neg hb2] at h
        cases h
        exact ⟨hGb, hleb⟩

theorem local_search_main_bounds {init : List ℕ} {times : Mat} {m : ℕ}
    {mi : ℕ} {tk : Option ℕ} {mo : String} {rb : Bool} {bu : Option ℚ}
    {clk : ℕ → ℚ} {fu : ℕ} {res : List ℕ × ℚ × ℕ × ℚ}
    (hrect : Rect times m) (hm : 0 < m)
    (h : local_search_main init times mi tk mo rb bu clk fu = .ok res) :
    (∀ mk0, calculate_makespan times init = .ok mk0 → res.2.1 ≤ mk0) ∧
    calculate_makespan times res.1 = .ok res.2.1 := by
  by_cases hdeg : init = [] ∨ times = []
  · rw [local_search_main, if_pos hdeg] at h
    cases h
    have hz : calculate_makespan times init = .ok 0 :=
      (makespan_validation times init).1 (by tauto)
    constructor
    · intro mk0 hmk0
      rw [hz] at hmk0
      cases hmk0
      exact le_refl _
    · exact hz
  · push_neg at hdeg
    simp only [local_search_main] at h
    rw [if_neg (by tauto)] at h
    by_cases hlen : init.length ≠ times.length
    · rw [if_pos hlen] at h
      cases h
    · rw [if_neg hlen] at h
      push_neg at hlen
      by_cases hone : times.length ≤ 1
      · rw [if_pos hone] at h
        cases hmk : calculate_makespan times init with
        | error e =>
          rw [hmk] at h
          cases h
        | ok mk =>
          rw [hmk] at h
          cases h
          constructor
          · intro mk0 hmk0
            cases hmk0
            exact le_refl _
          · exact hmk
      · rw [if_neg hone] at h
        obtain ⟨mk, hmk, h⟩ := bind_ok_ex h
        obtain ⟨stF, hSL, h⟩ := bind_ok_ex h
        cases h
        have htne : times ≠ [] := hdeg.2
        have hsne : init ≠ [] := hdeg.1
        have hvalid := makespan_ok_valid htne hsne hmk
        obtain ⟨hGF, hleF⟩ := searchLoop_good (by exact hrect) hm
          (by exact htne) mi
          (by exact ⟨⟨hlen, hvalid, rfl, hmk⟩, hlen, hvalid, hmk⟩) hSL
        constructor
        · intro mk0 hmk0
          rw [hmk] at hmk0
          cases hmk0
          exact hleF
        · exact hGF.2.2.2

/-- C2: on a valid instance, `local_search_main` never returns a best
makespan above the makespan of its initial sequence, the returned pair is
a genuine sequence/makespan pair, and feeding the returned best sequence
back into `local_search_main` (with any parameters) never yields a worse
makespan than the first call's result. -/
theorem search_never_worse {init : List ℕ} {times : Mat} {m : ℕ} {mi : ℕ}
    {tk : Option ℕ} {mo : String} {rb : Bool} {bu : Option ℚ} {clk : ℕ → ℚ}
    {fu : ℕ} {s1 : List ℕ} {k1 : ℚ} {i1 : ℕ} {t1 : ℚ} {mk0 : ℚ}
    (hrect : Rect times m) (hm : 0 < m)
    (h1 : local_search_main init times mi tk mo rb bu clk fu =
      .ok (s1, k1, i1, t1))
    (hmk : calculate_makespan times init = .ok mk0) :
    k1 ≤ mk0 ∧ calculate_makespan times s1 = .ok k1 ∧
    ∀ (mi2 : ℕ) (tk2 : Option ℕ) (mo2 : String) (rb2 : Bool) (bu2 : Option ℚ)
      (clk2 : ℕ → ℚ) (fu2 : ℕ) (s2 : List ℕ) (k2 : ℚ) (i2 : ℕ) (t2 : ℚ),
      local_search_main s1 times mi2 tk2 mo2 rb2 bu2 clk2 fu2 =
        .ok (s2, k2, i2, t2) →
      k2 ≤ k1 := by
  obtain ⟨hb1, hb2⟩ := local_search_main_bounds hrect hm h1
  refine ⟨hb1 mk0 hmk, hb2, ?_⟩
  intro mi2 tk2 mo2 rb2 bu2 clk2 fu2 s2 k2 i2 t2 h2
  exact (local_search_main_bounds hrect hm h2).1 k1 hb2

theorem search_never_worse_witness :
    (8 : ℚ) ≤ 8 ∧ calculate_makespan [[1, 2], [3, 4]] [0, 1] = .ok 8 := by
  have hmk : calculate_makespan [[1, 2], [3, 4]] [0, 1] = .ok 8 := by
    rw [calculate_makespan, if_neg (by simp), if_neg (by decide)]
    norm_num [ctRows, firstRow, firstRowGo, nextRow, nextRowGo, procRow,
      lastLast]
  have h1 : local_search_main [0, 1] [[1, 2], [3, 4]] 0 none ("best") true
      none (fun _ => 0) 0 = .ok ([0, 1], 8, 0, 0) := by
    simp only [local_search_main]
    rw [if_neg (by decide), if_neg (by decide), if_neg (by decide), hmk, bindOk,
      searchLoop, bindOk]
    norm_num
  have hrect : Rect [[(1 : ℚ), 2], [3, 4]] 2 := by
    intro row hr
    simp at hr
    rcases hr with hr | hr <;> simp [hr]
  obtain ⟨ha, hb, _⟩ := search_never_worse hrect (by norm_num) h1 hmk
  exact ⟨ha, hb⟩

theorem maybeRecompute_id {t : Mat} (c : Ctx) {st : St} (hct : c.times = t)
    (hB : BnInv t st) : maybeRecompute c st = st := by
  subst hct
  obtain ⟨h1, h2, h3⟩ := hB
  rw [maybeRecompute]
  by_cases hr : c.recompute
  · rw [if_pos hr]
    simp only []
    rw [← h1, ← h2, ← h3]
  · rw [if_neg hr]

theorem maybeRecomputeBnOnly_id {t : Mat} (c : Ctx) {st : St}
    (hct : c.times = t) (hB : BnInv t st) : maybeRecomputeBnOnly c st = st := by
  subst hct
  obtain ⟨h1, _, _⟩ := hB
  rw [maybeRecomputeBnOnly]
  by_cases hr : c.recompute
  · rw [if_pos hr, ← h1]
  · rw [if_neg hr]

theorem perturbPhase_bninv {t : Mat} {times : Mat} {scores : List (ℕ × ℚ)}
    {st : St} {res : St × Bool} (hB : BnInv t st)
    (h : perturbPhase times scores st = .ok res) : BnInv t res.1 := by
  simp only [perturbPhase] at h
  by_cases htrig : 2 ≤ st.streak + 1
  · rw [if_pos htrig] at h
    cases scores with
    | nil =>
      cases h
      exact hB
    | cons hd0 tl =>
      obtain ⟨bestPos, s⟩ := hd0
      simp only [] at h
      cases hdel : calculate_makespan_delta times st.seq bestPos st.ct with
      | error e =>
        rw [hdel, bindErr] at h
        cases h
      | ok r =>
        rw [hdel, bindOk] at h
        by_cases hle : r.1 ≤ st.curMk + (0.002 : ℚ) * st.curMk
        · rw [if_pos hle] at h
          cases hsw : swap_adjacent st.seq bestPos with
          | error e =>
            rw [hsw, bindErr] at h
            cases h
          | ok ns =>
            rw [hsw, bindOk] at h
            by_cases hbest : r.1 < st.bestMk
            · rw [if_pos hbest] at h
              cases h
              exact hB
            · rw [if_neg hbest] at h
              cases h
              exact hB
        · rw [if_neg hle] at h
          cases h
          exact hB
  · rw [if_neg htrig] at h
    cases h
    exact hB

theorem insertTryTargets_bninv {t : Mat} {times : Mat} (pos : ℕ) :
    ∀ (ts : List ℕ) {st : St} {res : St × Bool}, BnInv t st →
    insertTryTargets times pos ts st = .ok res → BnInv t res.1 := by
  intro ts
  induction ts with
  | nil =>
    intro st res hB h
    rw [insertTryTargets] at h
    cases h
    exact hB
  | cons x rest ih =>
    intro st res hB h
    simp only [insertTryTargets] at h
    cases he : evaluate_insertion_delta times st.seq pos x st.ct with
    | error e =>
      rw [he, bindErr] at h
      cases h
    | ok r =>
      rw [he, bindOk] at h
      by_cases hlt : r.2.1 < st.curMk
      · rw [if_pos hlt] at h
        by_cases hbest : r.2.1 < st.bestMk
        · rw [if_pos hbest] at h
          cases h
          exact hB
        · rw [if_neg hbest] at h
          cases h
          exact hB
      · rw [if_neg hlt] at h
        exact ih hB h

theorem insertTryCandidates_bninv {t : Mat} {times : Mat} (n : ℕ) :
    ∀ (cand : List ℕ) {st : St} {res : St × Bool}, BnInv t st →
    insertTryCandidates times n cand st = .ok res → BnInv t res.1 := by
  intro cand
  induction cand with
  | nil =>
    intro st res hB h
    rw [insertTryCandidates] at h
    cases h
    exact hB
  | cons pos ps ih =>
    intro st res hB h
    simp only [insertTryCandidates] at h
    obtain ⟨r, hr, h⟩ := bind_ok_ex h
    have hBr := insertTryTargets_bninv pos _ hB hr
    by_cases hr2 : r.2
    · rw [if_pos hr2] at h
      cases h
      exact hBr
    · rw [if_neg hr2] at h
      exact ih hBr h

theorem windowSweep_flag {c : Ctx} :
    ∀ (ps : List ℕ) (st : St) (b : Bool), BnInv c.times st →
    (windowSweep c ps st b =
      windowSweep { c with recompute := false } ps st b) ∧
    (∀ res, windowSweep c ps st b = .ok res → BnInv c.times res.1) := by
  intro ps
  induction ps with
  | nil =>
    intro st b hB
    constructor
    · rfl
    · intro res h
      rw [windowSweep] at h
      cases h
      exact hB
  | cons pos rest ih =>
    intro st b hB
    simp only [windowSweep]
    cases hd : calculate_makespan_delta c.times st.seq pos st.ct with
    | error e =>
      constructor
      · simp only [bindErr]
      · intro res h
        rw [bindErr] at h
        cases h
    | ok r =>
      by_cases hlt : r.1 < st.curMk
      · cases hsw : swap_adjacent st.seq pos with
        | error e =>
          constructor
          · simp only [bindOk]
            rw [if_pos hlt, if_pos hlt]
            simp only [bindErr]
          · intro res h
            simp only [bindOk] at h
            rw [if_pos hlt] at h
            rw [bindErr] at h
            cases h
        | ok ns =>
          by_cases hbest : r.1 < st.bestMk
          · constructor
            · simp only [bindOk]
              rw [if_pos hlt, if_pos hlt, if_pos hbest,
                maybeRecomputeBnOnly_id c rfl (by exact hB),
                maybeRecomputeBnOnly_id { c with recompute := false } rfl
                  (by exact hB)]
              exact (ih _ _ (by exact hB)).1
            · intro res h
              simp only [bindOk] at h
              rw [if_pos hlt, if_pos hbest,
                maybeRecomputeBnOnly_id c rfl (by exact hB)] at h
              exact (ih _ _ (by exact hB)).2 res h
          · constructor
            · simp only [bindOk]
              rw [if_pos hlt, if_pos hlt, if_neg hbest,
                maybeRecomputeBnOnly_id c rfl (by exact hB),
                maybeRecomputeBnOnly_id { c with recompute := false } rfl
                  (by exact hB)]
              exact (ih _ _ (by exact hB)).1
            · intro res h
              simp only [bindOk] at h
              rw [if_pos hlt, if_neg hbest,
                maybeRecomputeBnOnly_id c rfl (by exact hB)] at h
              exact (ih _ _ (by exact hB)).2 res h
      · constructor
        · simp only [bindOk]
          rw [if_neg hlt, if_neg hlt]
          exact (ih _ _ hB).1
        · intro res h
          simp only [bindOk] at h
          rw [if_neg hlt] at h
          exact (ih _ _ hB).2 res h

theorem windowLoop_flag {c : Ctx} (lo hi : ℕ) :
    ∀ (f : ℕ) (st : St), BnInv c.times st →
    (windowLoop c lo hi f st =
      windowLoop { c with recompute := false } lo hi f st) ∧
    (∀ res, windowLoop c lo hi f st = .ok res → BnInv c.times res) := by
  intro f
  induction f with
  | zero =>
    intro st hB
    constructor
    · rfl
    · intro res h
      rw [windowLoop] at h
      cases h
      exact hB
  | succ f ih =>
    intro st hB
    simp only [windowLoop]
    obtain ⟨hsw_eq, hsw_pres⟩ := windowSweep_flag _ st false hB
    rw [← hsw_eq]
    cases hs : windowSweep c (List.range' lo (hi + 1 - lo)) st false with
    | error e =>
      constructor
      · simp only [bindErr]
      · intro res h
        rw [bindErr] at h
        cases h
    | ok r =>
      have hBr := hsw_pres r hs
      by_cases hr2 : r.2
      · constructor
        · simp only [bindOk]
          rw [if_pos hr2, if_pos hr2]
          exact (ih r.1 hBr).1
        · intro res h
          simp only [bindOk] at h
          rw [if_pos hr2] at h
          exact (ih r.1 hBr).2 res h
      · constructor
        · simp only [bindOk]
          rw [if_neg hr2, if_neg hr2]
        · intro res h
          simp only [bindOk] at h
          rw [if_neg hr2] at h
          cases h
          exact hBr

theorem windowReopt_flag {c : Ctx} {st : St} (hB : BnInv c.times st) :
    (windowReopt c st = windowReopt { c with recompute := false } st) ∧
    (∀ res, windowReopt c st = .ok res → BnInv c.times res) := by
  simp only [windowReopt]
  cases hs : sortScores (scoreAll c.times c.jobTotals st) with
  | nil =>
    constructor
    · rfl
    · intro res h
      cases h
  | cons hd0 tl =>
    obtain ⟨focus, s⟩ := hd0
    exact windowLoop_flag _ _ _ _ hB

theorem intensifyLoop_flag {c : Ctx} :
    ∀ (f : ℕ) (st : St) (scores : List (ℕ × ℚ)) (tp : List ℕ) (impr : Bool),
    BnInv c.times st →
    (intensifyLoop c f st scores tp impr =
      intensifyLoop { c with recompute := false } f st scores tp impr) ∧
    (∀ res, intensifyLoop c f st scores tp impr = .ok res →
      BnInv c.times res.1) := by
  intro f
  induction f with
  | zero =>
    intro st scores tp impr hB
    constructor
    · rfl
    · intro res h
      rw [intensifyLoop] at h
      cases h
      exact hB
  | succ f ih =>
    intro st scores tp impr hB
    simp only [intensifyLoop]
    have hbh : budgetHit { c with recompute := false } st.tick =
        budgetHit c st.tick := rfl
    rw [hbh]
    by_cases hbt : (budgetHit c st.tick).1
    · rw [if_pos hbt, if_pos hbt]
      constructor
      · rfl
      · intro res h
        cases h
        exact hB
    · rw [if_neg hbt, if_neg hbt]
      cases hE : selectSwap c.times c.mode st.seq st.curMk st.ct tp with
      | error e =>
        constructor
        · simp only [bindErr]
        · intro res h
          rw [bindErr] at h
          cases h
      | ok sel =>
        simp only [bindOk]
        cases sel with
        | none =>
          constructor
          · rfl
          · intro res h
            cases h
            exact hB
        | some x =>
          obtain ⟨pos, newMk, newCt⟩ := x
          simp only []
          by_cases hlt : newMk < st.curMk
          · rw [if_pos hlt, if_pos hlt]
            cases hsw : swap_adjacent st.seq pos with
            | error e =>
              constructor
              · simp only [bindErr]
              · intro res h
                rw [bindErr] at h
                cases h
            | ok ns =>
              simp only [bindOk]
              by_cases hbest : newMk < st.bestMk
              · rw [if_pos hbest, maybeRecompute_id c rfl (by exact hB),
                  maybeRecompute_id { c with recompute := false } rfl
                    (by exact hB)]
                constructor
                · exact (ih _ _ _ _ (by exact hB)).1
                · intro res h
                  exact (ih _ _ _ _ (by exact hB)).2 res h
              · rw [if_neg hbest, maybeRecompute_id c rfl (by exact hB),
                  maybeRecompute_id { c with recompute := false } rfl
                    (by exact hB)]
                constructor
                · exact (ih _ _ _ _ (by exact hB)).1
                · intro res h
                  exact (ih _ _ _ _ (by exact hB)).2 res h
          · rw [if_neg hlt, if_neg hlt]
            constructor
            · rfl
            · intro res h
              cases h
              exact hB

theorem pureOk {ε α : Type} (a : α) :
    (pure a : Except ε α) = Except.ok a := rfl

theorem iterationBody_flag (c : Ctx) (st0 : St) (hB : BnInv c.times st0) :
    (iterationBody c st0 = iterationBody { c with recompute := false } st0) ∧
    (∀ res, iterationBody c st0 = .ok res → BnInv c.times res.1) := by
  simp only [iterationBody]
  obtain ⟨hI_eq, hI_pres⟩ := intensifyLoop_flag (c := c) c.fuel
    { st0 with iters := st0.iters + 1 }
    (sortScores (scoreAll c.times c.jobTotals
      { st0 with iters := st0.iters + 1 }))
    (topPositions
      (sortScores (scoreAll c.times c.jobTotals
        { st0 with iters := st0.iters + 1 }))
      c.topK) false (by exact hB)
  rw [← hI_eq]
  cases hI : intensifyLoop c c.fuel { st0 with iters := st0.iters + 1 }
      (sortScores (scoreAll c.times c.jobTotals
        { st0 with iters := st0.iters + 1 }))
      (topPositions
        (sortScores (scoreAll c.times c.jobTotals
          { st0 with iters := st0.iters + 1 }))
        c.topK) false with
  | error e =>
    constructor
    · simp only [bindErr]
    · intro res h
      rw [bindErr] at h
      cases h
  | ok r =>
    simp only [bindOk]
    have hBr : BnInv c.times r.1 := hI_pres r hI
    by_cases himpr : r.2.2.2 = true
    · rw [himpr]
      obtain ⟨hW_eq, hW_pres⟩ :=
        @windowReopt_flag c { r.1 with streak := 0 } (by exact hBr)
      constructor
      · exact congrArg (fun z => z >>= fun s =>
          (Except.ok (s, true) : Except String (St × Bool))) hW_eq
      · intro res h
        have h' : windowReopt c { r.1 with streak := 0 } >>=
            (fun s => (Except.ok (s, true) : Except String (St × Bool))) =
            Except.ok res := h
        obtain ⟨s, hs, hfin⟩ := bind_ok_ex h'
        cases hfin
        exact hW_pres s hs
    · rw [if_neg himpr]
      cases hP : perturbPhase c.times r.2.1 r.1 with
      | error e =>
        constructor
        · simp only [bindErr]
        · intro res h
          rw [bindErr] at h
          cases h
      | ok p =>
        simp only [bindOk]
        have hBp : BnInv c.times p.1 := perturbPhase_bninv hBr hP
        by_cases hp2 : p.2 = false
        · rw [if_pos hp2, if_pos hp2]
          constructor
          · rfl
          · intro res h
            cases h
            exact hBp
        · rw [if_neg hp2, if_neg hp2]
          by_cases hstr : 2 ≤ p.1.streak
          · have hcq : ¬r.2.2.2 = true ∧ 2 ≤ p.1.streak := ⟨himpr, hstr⟩
            rw [if_pos hcq]
            cases hR2 : insertTryCandidates c.times p.1.seq.length
                (r.2.2.1.take (min 10 r.2.2.1.length)) p.1 with
            | error e =>
              constructor
              · simp only [bindErr]
              · intro res h
                have h' : (Except.error e : Except String (St × Bool)) =
                    Except.ok res := h
                cases h'
            | ok r2 =>
              simp only [bindOk]
              have hBr2 : BnInv c.times r2.1 :=
                insertTryCandidates_bninv _ _ (by exact hBp) hR2
              by_cases hr22 : r2.2 = true
              · rw [hr22]
                obtain ⟨hW_eq, hW_pres⟩ :=
                  @windowReopt_flag c { r2.1 with streak := 0 } (by exact hBr2)
                constructor
                · exact congrArg (fun z => z >>= fun s =>
                    (Except.ok (s, true) : Except String (St × Bool))) hW_eq
                · intro res h
                  have h' : windowReopt c { r2.1 with streak := 0 } >>=
                      (fun s =>
                        (Except.ok (s, true) : Except String (St × Bool))) =
                      Except.ok res := h
                  obtain ⟨s, hs, hfin⟩ := bind_ok_ex h'
                  cases hfin
                  exact hW_pres s hs
              · rw [if_neg hr22]
                rw [pureOk]
                simp only [bindOk]
                rw [if_neg himpr, if_neg himpr]
                constructor
                · rfl
                · intro res h
                  cases h
                  exact hBr2
          · have hcq : ¬(¬r.2.2.2 = true ∧ 2 ≤ p.1.streak) :=
              fun hh => hstr hh.2
            rw [if_neg hcq]
            rw [pureOk]
            simp only [bindOk]
            rw [if_neg himpr, if_neg himpr]
            constructor
            · rfl
            · intro res h
              cases h
              exact hBp

theorem searchLoop_flag {c : Ctx} :
    ∀ (r : ℕ) (st : St), BnInv c.times st →
    (searchLoop c r st = searchLoop { c with recompute := false } r st) ∧
    (∀ res, searchLoop c r st = .ok res → BnInv c.times res) := by
  intro r
  induction r with
  | zero =>
    intro st hB
    constructor
    · rfl
    · intro res h
      rw [searchLoop] at h
      cases h
      exact hB
  | succ r ih =>
    intro st hB
    simp only [searchLoop]
    have hbh : budgetHit { c with recompute := false } st.tick =
        budgetHit c st.tick := rfl
    rw [hbh]
    by_cases hbt : (budgetHit c st.tick).1 = true
    · rw [if_pos hbt, if_pos hbt]
      constructor
      · rfl
      · intro res h
        cases h
        exact hB
    · rw [if_neg hbt, if_neg hbt]
      obtain ⟨hI_eq, hI_pres⟩ :=
        iterationBody_flag c { st with tick := (budgetHit c st.tick).2 }
          (by exact hB)
      rw [← hI_eq]
      cases hI : iterationBody c
          { st with tick := (budgetHit c st.tick).2 } with
      | error e =>
        constructor
        · simp only [bindErr]
        · intro res h
          rw [bindErr] at h
          cases h
      | ok b =>
        simp only [bindOk]
        have hBb : BnInv c.times b.1 := hI_pres b hI
        by_cases hb2 : b.2 = true
        · rw [if_pos hb2, if_pos hb2]
          exact ih b.1 hBb
        · rw [if_neg hb2, if_neg hb2]
          constructor
          · rfl
          · intro res h
            cases h
            exact hBb

/-- **C10**: with `recompute_bottleneck=True` the bottleneck machine index
and its statistics are recomputed inside the improvement branch from the
processing-time matrix, but since that matrix never changes the flag has
no effect: `local_search_main` returns exactly the same result with the
flag on or off, for every input, mode, budget, clock and fuel. -/
theorem recompute_flag_irrelevant (init : List ℕ) (times : Mat)
    (mi : ℕ) (tk : Option ℕ) (mo : String) (bu : Option ℚ)
    (clk : ℕ → ℚ) (fu : ℕ) :
    local_search_main init times mi tk mo true bu clk fu =
    local_search_main init times mi tk mo false bu clk fu := by
  simp only [local_search_main]
  by_cases h0 : init = [] ∨ times = []
  · rw [if_pos h0, if_pos h0]
  · rw [if_neg h0, if_neg h0]
    by_cases h1 : init.length ≠ times.length
    · rw [if_pos h1, if_pos h1]
    · rw [if_neg h1, if_neg h1]
      by_cases h2 : times.length ≤ 1
      · rw [if_pos h2, if_pos h2]
      · rw [if_neg h2, if_neg h2]
        cases hmk : calculate_makespan times init with
        | error e => simp only [bindErr]
        | ok mk =>
          simp only [bindOk]
          obtain ⟨hS_eq, hSp⟩ := searchLoop_flag (c :=
            { times := times,
              jobTotals := (List.range times.length).map
                (calculate_total_processing_time times),
              topK := resolveTopK tk init.length, mode := mo,
              recompute := true, budget := bu, clock := clk,
              startTime := clk 0, fuel := fu }) mi
            { seq := init, curMk := mk, bestSeq := init, bestMk := mk,
              ct := calculate_completion_times times init,
              bn := identify_bottleneck_machine times,
              bnProc := (bnStats times times.length
                (identify_bottleneck_machine times)).1,
              bnThr := (bnStats times times.length
                (identify_bottleneck_machine times)).2,
              streak := 0, iters := 0, tick := 1 }
            (by exact ⟨rfl, rfl, rfl⟩)
          exact congrArg (fun z => z >>= fun stF =>
            (Except.ok (stF.bestSeq, stF.bestMk, stF.iters,
              clk stF.tick - clk 0) :
              Except String (List ℕ × ℚ × ℕ × ℚ))) hS_eq

end FlowShop
